import Mathlib

/-!
Verification development for the MRBot-Offline language-model core
(`neural-language-model-transformer.js`): the sub-word tokenizer
(`fit` / `encode` / `decode`), the curriculum filter and post-training
bookkeeping of `trainModel`, beam-search decoding and the fallback
responder of `generateResponse`, and the `exportModel` / `importModel`
round trip.

JavaScript is embedded shallowly:
* a JS `Map` is an insertion-ordered association list (`mget` / `mset` /
  `mhas`); `Map.get` on a missing key is `none` (JS `undefined`);
* `text.toLowerCase().split(/\s+/)` is `jsSplitWs (jsToLower text)`,
  reproducing JS's empty leading/trailing fields and `[""]` on `""`
  (character handling is at ASCII fidelity, which covers every input
  exercised below);
* arrays pushed with possibly-`undefined` numbers are `List (Option Nat)`;
  `Array.prototype.join` renders `undefined` as the empty string;
* `Array.prototype.sort` with a numeric comparator (stable in the source's
  runtime) is the stable insertion sort `stableSortDesc`;
* the TensorFlow.js forward pass is an oracle parameter: beam search only
  consumes, per step, the top-k (token, score-increment) list that the
  source derives from `model.predict` + temperature scaling + `topk`.
-/

set_option maxRecDepth 8000

namespace MRBot

/-- JS `\s` whitespace for the inputs considered (ASCII fidelity). -/
def jsIsWs (c : Char) : Bool :=
  c == ' ' || c == '\t' || c == '\n' || c == '\r'

/-- Worker for `jsSplitWs`: `cur` is the field being accumulated, `inRun`
records whether the previous character was part of a separator run. -/
def splitWsAux : List Char → List Char → Bool → List (List Char)
  | [], cur, _ => [cur]
  | c :: cs, cur, inRun =>
    if jsIsWs c then
      if inRun then splitWsAux cs cur true
      else cur :: splitWsAux cs [] true
    else splitWsAux cs (cur ++ [c]) false

/-- JS `s.split(/\s+/)`: split on maximal whitespace runs, keeping the empty
leading/trailing fields JS produces (`"" → [""]`, `" a" → ["", "a"]`). -/
def jsSplitWs (s : String) : List String :=
  (splitWsAux s.data [] false).map String.mk

/-- JS `s.toLowerCase()` (ASCII fidelity). -/
def jsToLower (s : String) : String :=
  String.mk (s.data.map Char.toLower)

/-- JS `Map.prototype.get`: first (only) binding of the key, else `undefined`. -/
def mget [DecidableEq K] (m : List (K × V)) (k : K) : Option V :=
  match m with
  | [] => none
  | p :: ps => if p.1 = k then some p.2 else mget ps k

/-- JS `Map.prototype.has`. -/
def mhas [DecidableEq K] (m : List (K × V)) (k : K) : Bool :=
  (mget m k).isSome

/-- JS `Map.prototype.set`: overwrite in place if the key is present
(keeping its position), otherwise append a fresh binding. -/
def mset [DecidableEq K] (m : List (K × V)) (k : K) (v : V) : List (K × V) :=
  if mhas m k then m.map (fun p => if p.1 = k then (k, v) else p) else m ++ [(k, v)]

/-- The duck-typed tokenizer object of `initializeTokenizer`: its four data
fields (`word2idx`, `idx2word`, `subwords`, `vocabSize`). -/
structure Tokenizer where
  word2idx : List (String × Nat)
  idx2word : List (Nat × String)
  subwords : List (String × Nat)
  vocabSize : Nat
deriving DecidableEq

/-- The tokenizer as first built, before any `fit`. -/
def emptyTokenizer : Tokenizer := ⟨[], [], [], 0⟩

/-- `this.word2idx.get(w)`. -/
def Tokenizer.getId (t : Tokenizer) (w : String) : Option Nat :=
  mget t.word2idx w

/-- First pass of `fit` over one text: count lowercased whitespace-split
word frequencies. -/
def wordFreqOfText (freq : List (String × Nat)) (text : String) : List (String × Nat) :=
  (jsSplitWs (jsToLower text)).foldl (fun f w => mset f w ((mget f w).getD 0 + 1)) freq

/-- First pass of `fit`: word frequencies over the whole corpus. -/
def buildWordFreq (texts : List String) : List (String × Nat) :=
  texts.foldl wordFreqOfText []

/-- Inner loop of the sub-word pass: all n-grams of one fixed length `n` of
`word`, each accumulated with the parent word's frequency
(`for (let i = 0; i <= word.length - n; i++)`). -/
def addNgramsOfLen (word : List Char) (freqW : Nat) (n : Nat)
    (cands : List (String × Nat)) : List (String × Nat) :=
  if word.length < n then cands
  else (List.range (word.length - n + 1)).foldl
    (fun cs i =>
      let sub := String.mk ((word.drop i).take n)
      mset cs sub ((mget cs sub).getD 0 + freqW)) cands

/-- Sub-word pass of `fit` for one word: n-grams of lengths 2, 3, 4, skipped
entirely for words of length ≤ 1. -/
def addNgramsOfWord (cands : List (String × Nat)) (wf : String × Nat) : List (String × Nat) :=
  if wf.1.length ≤ 1 then cands
  else [2, 3, 4].foldl (fun cs n => addNgramsOfLen wf.1.data wf.2 n cs) cands

/-- Sub-word pass of `fit`: n-gram frequency accumulation over `wordFreq`. -/
def buildSubwordCands (wordFreq : List (String × Nat)) : List (String × Nat) :=
  wordFreq.foldl addNgramsOfWord []

/-- Stable insert for `stableSortDesc`: place `x` before the first element it
beats strictly, after all earlier ties. -/
def insertDesc (gt : α → α → Bool) (x : α) : List α → List α
  | [] => [x]
  | y :: ys => if gt x y then x :: y :: ys else y :: insertDesc gt x ys

/-- Stable descending sort, the behaviour of the source's
`.sort((a, b) => b[1] - a[1])` (a stable comparator sort). -/
def stableSortDesc (gt : α → α → Bool) (l : List α) : List α :=
  l.foldl (fun acc x => insertDesc gt x acc) []

/-- State threaded through the vocabulary-building loops of `fit`: the
`word2idx` / `idx2word` / `subwords` maps and the running `idx` counter. -/
structure FitAcc where
  w2i : List (String × Nat)
  i2w : List (Nat × String)
  subs : List (String × Nat)
  idx : Nat
deriving DecidableEq

/-- One iteration of `fit`'s sub-word insertion loop. -/
def addSubwordEntry (acc : FitAcc) (sw : String × Nat) : FitAcc :=
  { w2i := mset acc.w2i sw.1 acc.idx
    i2w := mset acc.i2w acc.idx sw.1
    subs := mset acc.subs sw.1 acc.idx
    idx := acc.idx + 1 }

/-- One iteration of `fit`'s whole-word insertion loop (guarded by
`!this.word2idx.has(word)`; `subwords` is not touched). -/
def addWholeWordEntry (acc : FitAcc) (wf : String × Nat) : FitAcc :=
  if mhas acc.w2i wf.1 then acc
  else { acc with
          w2i := mset acc.w2i wf.1 acc.idx
          i2w := mset acc.i2w acc.idx wf.1
          idx := acc.idx + 1 }

/-- The four reserved bindings `fit` installs first in `word2idx`. -/
def reservedW2I : List (String × Nat) :=
  [("<PAD>", 0), ("<UNK>", 1), ("<START>", 2), ("<END>", 3)]

/-- The four reserved bindings `fit` installs first in `idx2word`. -/
def reservedI2W : List (Nat × String) :=
  [(0, "<PAD>"), (1, "<UNK>"), (2, "<START>"), (3, "<END>")]

/-- `tokenizer.fit(texts)`: reset the vocabulary, install the reserved
tokens, add the top-5000 sub-word n-grams by frequency (stable descending
sort) and then every whole word not already present, ids counting up from 4.
The prior tokenizer state is cleared first, so the result ignores it. -/
def Tokenizer.fit (_t : Tokenizer) (texts : List String) : Tokenizer :=
  let wordFreq := buildWordFreq texts
  let sortedSubwords :=
    (stableSortDesc (fun a b => decide (b.2 < a.2)) (buildSubwordCands wordFreq)).take 5000
  let acc0 : FitAcc := ⟨reservedW2I, reservedI2W, [], 4⟩
  let acc1 := sortedSubwords.foldl addSubwordEntry acc0
  let acc2 := wordFreq.foldl addWholeWordEntry acc1
  { word2idx := acc2.w2i
    idx2word := acc2.i2w
    subwords := acc2.subs
    vocabSize := acc2.w2i.length }

/-- `fit` applied to the fresh tokenizer. -/
def tokFit (texts : List String) : Tokenizer :=
  emptyTokenizer.fit texts

/-- The greedy sub-word probe of `encode`: at the current position try the
sub-word of length `min 4 remaining` down to 2, returning the matched
`(length, id)` if any (`for (let len = Math.min(4, word.length - i); len >= 2; len--)`). -/
def findSub (t : Tokenizer) (cs : List Char) : Option (Nat × Nat) :=
  (([4, 3, 2] : List Nat).filter (fun n => n ≤ cs.length)).findSome? (fun len =>
    match mget t.subwords (String.mk (cs.take len)) with
    | some id => some (len, id)
    | none => none)

/-- The position-advancing loop of `encode` over an out-of-vocabulary word:
emit the greedily matched sub-word id and advance by its length, or emit
`<UNK>` and advance one character. Returns the emitted ids and the
`wordEncoded` flag (did any sub-word match). Fuel is the character count;
every step consumes at least one character. -/
def subwordLoop (t : Tokenizer) : Nat → List Char → List (Option Nat) × Bool
  | 0, _ => ([], false)
  | _, [] => ([], false)
  | fuel + 1, c :: cs =>
    match findSub t (c :: cs) with
    | some li =>
      let rest := subwordLoop t fuel ((c :: cs).drop li.1)
      (some li.2 :: rest.1, true)
    | none =>
      let rest := subwordLoop t fuel cs
      (t.getId "<UNK>" :: rest.1, rest.2)

/-- Ids `encode` emits for one word: the word's own id if present, else the
sub-word loop's output, with one extra `<UNK>` when no sub-word at all
matched. -/
def encodeWord (t : Tokenizer) (word : String) : List (Option Nat) :=
  match t.getId word with
  | some id => [some id]
  | none =>
    let r := subwordLoop t word.data.length word.data
    if r.2 then r.1 else r.1 ++ [t.getId "<UNK>"]

/-- The word loop of `encode` with its truncation check: after each word,
stop once `result.length >= maxLength - 1`. -/
def encodeWords (t : Tokenizer) (maxLength : Nat) : List String → List (Option Nat) → List (Option Nat)
  | [], res => res
  | w :: ws, res =>
    let res2 := res ++ encodeWord t w
    if maxLength - 1 ≤ res2.length then res2 else encodeWords t maxLength ws res2

/-- `tokenizer.encode(text, maxLength)`: `<START>`, the word loop, `<END>`,
then `<PAD>` up to `maxLength`. Lookups that miss (unfit vocabulary) push
JS `undefined`, i.e. `none`. -/
def Tokenizer.encode (t : Tokenizer) (text : String) (maxLength : Nat) : List (Option Nat) :=
  let body := encodeWords t maxLength (jsSplitWs (jsToLower text)) [t.getId "<START>"]
  let withEnd := body ++ [t.getId "<END>"]
  withEnd ++ List.replicate (maxLength - withEnd.length) (t.getId "<PAD>")

/-- Classification of the ids `encode` can emit between `<START>` and
`<END>`: the id of a vocabulary entry (whole-word hit), the id of a
sub-word entry, or the `<UNK>` lookup. -/
def isEmittedTok (t : Tokenizer) (x : Option Nat) : Prop :=
  (∃ s i, mget t.word2idx s = some i ∧ x = some i) ∨
  (∃ s i, mget t.subwords s = some i ∧ x = some i) ∨
  x = t.getId "<UNK>"

/-- `this.idx2word.get(idx)` for a possibly-`undefined` index (`Map.get` on
`undefined` misses). -/
def decodeToken (t : Tokenizer) (idx : Option Nat) : Option String :=
  match idx with
  | some n => mget t.idx2word n
  | none => none

/-- The token loop of `decode`: skip `<PAD>`/`<START>`, stop at `<END>`,
accumulate consecutive sub-word tokens into `cw`, flush `cw` before a whole
word, render `<UNK>` as `"?"`; a token whose id is unknown is pushed as JS
`undefined`, which `join` renders as `""`. The trailing flush of `cw` runs
both at `<END>` and at the end of the sequence, as in the source. -/
def decodeLoop (t : Tokenizer) : List (Option Nat) → String → List String → List String
  | [], cw, acc => if 0 < cw.length then acc ++ [cw] else acc
  | idx :: rest, cw, acc =>
    if idx = t.getId "<PAD>" ∨ idx = t.getId "<START>" then decodeLoop t rest cw acc
    else if idx = t.getId "<END>" then (if 0 < cw.length then acc ++ [cw] else acc)
    else
      match decodeToken t idx with
      | some tok =>
        if mhas t.subwords tok then decodeLoop t rest (cw ++ tok) acc
        else
          let acc2 := if 0 < cw.length then acc ++ [cw] else acc
          let acc3 := if tok = "<UNK>" then acc2 ++ ["?"] else acc2 ++ [tok]
          decodeLoop t rest "" acc3
      | none =>
        let acc2 := if 0 < cw.length then acc ++ [cw] else acc
        decodeLoop t rest "" (acc2 ++ [""])

/-- `tokenizer.decode(sequence)`: the token loop joined with single spaces. -/
def Tokenizer.decode (t : Tokenizer) (seq : List (Option Nat)) : String :=
  String.intercalate " " (decodeLoop t seq "" [])

/-! ### Beam search (`generateResponse`, lines 850–916)

The TensorFlow.js forward pass is abstracted as an oracle
`next : step → decoder-prefix → List (token, scoreDelta)`: the source
slices `model.predict`'s output at position `i`, temperature-scales it,
takes the top `beamWidth` entries, and adds `Math.log(values[k])` to the
beam score; the oracle delivers that per-step (token, increment) list.
Scores live in ℤ, an ordered group standing for the comparator-ordered JS
numbers: beam search only ever adds increments and compares totals. -/

/-- A beam search candidate (`{sequence, score}`). -/
structure BeamNode where
  sequence : List (Option Nat)
  score : ℤ
deriving DecidableEq

/-- `const beamWidth = 3`. -/
def beamWidth : Nat := 3

/-- JS `seq[seq.length - 1]` on a possibly empty array of possibly
`undefined` ids: out of bounds reads as `undefined` (`none`). -/
def jsLast (l : List (Option Nat)) : Option Nat :=
  l.getLast?.getD none

/-- Expansion of one live beam with the top-`beamWidth` next tokens. -/
def expandBeam (topk : List (Nat × ℤ)) (b : BeamNode) : List BeamNode :=
  (topk.take beamWidth).map (fun tv => ⟨b.sequence ++ [some tv.1], b.score + tv.2⟩)

/-- One step's candidate pool: beams already ending in `<END>` pass through
unchanged, every other beam contributes its top-`beamWidth` expansions. -/
def beamCandidates (next : Nat → List (Option Nat) → List (Nat × ℤ)) (endId : Option Nat)
    (i : Nat) (beams : List BeamNode) : List BeamNode :=
  beams.flatMap (fun b =>
    if jsLast b.sequence = endId then [b] else expandBeam (next i b.sequence) b)

/-- `candidates.sort((a, b) => b.score - a.score)` then keep the global top
`beamWidth`. -/
def beamSelect (cands : List BeamNode) : List BeamNode :=
  (stableSortDesc (fun a b => decide (b.score < a.score)) cands).take beamWidth

/-- The decoding loop `for (let i = 0; i < maxLength - 1; i++)` with its
early break once every kept beam ends in `<END>`. -/
def beamLoop (next : Nat → List (Option Nat) → List (Nat × ℤ)) (endId : Option Nat) :
    Nat → Nat → List BeamNode → List BeamNode
  | 0, _, beams => beams
  | fuel + 1, i, beams =>
    let beams2 := beamSelect (beamCandidates next endId i beams)
    if beams2.all (fun b => decide (jsLast b.sequence = endId)) then beams2
    else beamLoop next endId fuel (i + 1) beams2

/-- Beam search as run by `generateResponse`: a single beam holding
`[<START>]` with score 0, then at most `maxLength - 1` steps. -/
def runBeamSearch (next : Nat → List (Option Nat) → List (Nat × ℤ))
    (endId startTok : Option Nat) (maxLength : Nat) : List BeamNode :=
  beamLoop next endId (maxLength - 1) 0 [⟨[startTok], 0⟩]

/-! ### Training metrics, curriculum selection and `trainModel`'s epilogue -/

/-- A JS number as observed by the training epilogue: finite, `NaN` or a
signed infinity (`NaN` compares false under `>`). -/
inductive JsNum
  | nan
  | inf
  | ninf
  | fin (q : ℚ)
deriving DecidableEq

/-- JS `x > c` for a possibly-`undefined` number (`undefined > c` and
`NaN > c` are both false). -/
def jsOptGtQ : Option JsNum → ℚ → Bool
  | some (.fin q), c => decide (c < q)
  | some .inf, _ => true
  | some .ninf, _ => false
  | some .nan, _ => false
  | none, _ => false

/-- `this.trainingMetrics`. -/
structure TrainingMetrics where
  totalTrainingSessions : Nat
  totalExamples : Nat
  lastTrainingTime : Option String
  accuracy : Option JsNum
  loss : Option JsNum
  progressLevel : String
deriving DecidableEq

/-- The constructor's initial metrics. -/
def initialTrainingMetrics : TrainingMetrics :=
  ⟨0, 0, none, some (.fin 0), some (.fin 0), "beginner"⟩

/-- `this.parameters` (numeric fields as rationals). -/
structure Params where
  learningRate : ℚ
  batchSize : Nat
  epochs : Nat
  embeddingDim : Nat
  hiddenUnits : Nat
  maxSequenceLength : Nat
  vocabularySize : Nat
  temperature : ℚ
  numHeads : Nat
  numLayers : Nat
  ffDim : Nat
  dropoutRate : ℚ
deriving DecidableEq

/-- The constructor's default parameters. -/
def defaultParameters : Params :=
  ⟨1/1000, 32, 5, 512, 512, 128, 10000, 7/10, 8, 8, 2048, 1/10⟩

/-- Optional metadata of a training pair (`pair[2]`). -/
structure ExampleMeta where
  language : Option String
  difficulty : Option String
  topic : Option String
deriving DecidableEq

/-- A conversation pair `[input, output, metadata?]`. -/
structure TrainPair where
  input : String
  output : String
  meta : Option ExampleMeta
deriving DecidableEq

/-- The `difficultyOrder` table of `trainModel`. -/
def difficultyOrder : List (String × Nat) :=
  [("beginner", 0), ("elementary", 1), ("intermediate", 2), ("advanced", 3), ("expert", 4)]

/-- `difficultyOrder[metadata && metadata.difficulty ? metadata.difficulty :
'beginner'] || 0` (an empty difficulty string is falsy; an unknown name
indexes to `undefined`, and `|| 0` turns both into 0). -/
def ordinalOf (p : TrainPair) : Nat :=
  let d :=
    match p.meta with
    | some m =>
      match m.difficulty with
      | some s => if s = "" then "beginner" else s
      | none => "beginner"
    | none => "beginner"
  (mget difficultyOrder d).getD 0

/-- `conversationData.some(pair => pair.length > 2 && pair[2] && typeof
pair[2].difficulty === 'string')`. -/
def hasDifficultyMetadata (data : List TrainPair) : Bool :=
  data.any (fun p => match p.meta with | some m => m.difficulty.isSome | none => false)

/-- The curriculum filter of `trainModel`. `rand k` is the k-th
`Math.random()` draw; a draw is consumed exactly when the short-circuit
evaluation reaches it, i.e. only for examples one or two levels above
`lv`. -/
def curriculumFilter (lv : Nat) (rand : Nat → ℚ) : List TrainPair → Nat → List TrainPair
  | [], _ => []
  | p :: ps, k =>
    let dv := ordinalOf p
    if dv ≤ lv then p :: curriculumFilter lv rand ps k
    else if dv = lv + 1 then
      if rand k < 1/2 then p :: curriculumFilter lv rand ps (k + 1)
      else curriculumFilter lv rand ps (k + 1)
    else if dv = lv + 2 then
      if rand k < 1/5 then p :: curriculumFilter lv rand ps (k + 1)
      else curriculumFilter lv rand ps (k + 1)
    else curriculumFilter lv rand ps k

/-- `difficultyOrder[this.trainingMetrics.progressLevel || 'beginner'] || 0`. -/
def currentLevelValue (m : TrainingMetrics) : Nat :=
  let cur := if m.progressLevel = "" then "beginner" else m.progressLevel
  (mget difficultyOrder cur).getD 0

/-- The curriculum-selection phase of `trainModel`: filter only when some
example carries a difficulty tag, and fall back to the full set when fewer
than 10 examples survive. -/
def curriculumSelect (data : List TrainPair) (m : TrainingMetrics) (rand : Nat → ℚ) :
    List TrainPair :=
  if hasDifficultyMetadata data then
    let f := curriculumFilter (currentLevelValue m) rand data 0
    if f.length < 10 then data else f
  else data

/-- The spec-side inclusion predicate for curriculum selection: ordinal at
or below the level, or one level above with the draw below 0.5, or two
levels above with the draw below 0.2. -/
def keepPred (lv dv : Nat) (r : ℚ) : Prop :=
  dv ≤ lv ∨ (dv = lv + 1 ∧ r < 1/2) ∨ (dv = lv + 2 ∧ r < 1/5)

instance (lv dv : Nat) (r : ℚ) : Decidable (keepPred lv dv r) := by
  rw [keepPred]; infer_instance

/-- Spec-side pairing of each example with the `Math.random()` draw the
filter would consult for it: the draw counter advances exactly on examples
one or two levels above the current level (the only ones whose
short-circuit evaluation reaches `Math.random()`). -/
def withDraws (lv : Nat) (rand : Nat → ℚ) : List TrainPair → Nat → List (TrainPair × ℚ)
  | [], _ => []
  | p :: ps, k =>
    if ordinalOf p = lv + 1 ∨ ordinalOf p = lv + 2 then
      (p, rand k) :: withDraws lv rand ps (k + 1)
    else
      (p, rand k) :: withDraws lv rand ps k

/-- `['beginner', 'elementary', 'intermediate', 'advanced', 'expert']`. -/
def curriculumLevels : List String :=
  ["beginner", "elementary", "intermediate", "advanced", "expert"]

/-- The level-advance step of `trainModel`: `levels.indexOf(currentLevel)`,
advance while below the last level. JS `indexOf` yields -1 for an unknown
level, `-1 < levels.length - 1` holds, and `levels[0]` is taken. -/
def advanceLevel (current : String) : String :=
  match curriculumLevels.findIdx? (fun s => decide (s = current)) with
  | some i =>
    if i < curriculumLevels.length - 1 then (curriculumLevels.get? (i + 1)).getD current
    else current
  | none => (curriculumLevels.get? 0).getD current

/-- What `await this.model.fit(...)` resolves with: the per-epoch `loss` and
`accuracy` histories. TensorFlow.js resolves normally even when the loss
has diverged to `NaN`; it rejects (throws) only on genuine errors. -/
structure FitHistory where
  loss : List JsNum
  accuracy : List JsNum
deriving DecidableEq

/-- Outcome of the awaited `model.fit` call. -/
inductive FitOutcome
  | ok (h : FitHistory)
  | err (msg : String)
deriving DecidableEq

/-- Result of `trainModel`'s try/catch epilogue: the returned boolean, the
training metrics afterwards, and whether `saveModel` ran (persisting the
weights and the tokenizer vocabulary). -/
structure TrainResult where
  ok : Bool
  metrics : TrainingMetrics
  saved : Bool
deriving DecidableEq

/-- `trainModel` lines 770–816: on a resolved `fit` (whatever the loss
values), bump the session counters, record the last epoch's accuracy/loss
(`history.history.x[length - 1]`, `undefined` when empty), advance the
curriculum level when accuracy exceeds 0.8, and call `saveModel`; on a
rejected `fit`, catch, return false, touch nothing. -/
def trainModelFinish (m : TrainingMetrics) (nExamples : Nat) (now : String) :
    FitOutcome → TrainResult
  | .err _ => ⟨false, m, false⟩
  | .ok h =>
    let acc := h.accuracy.getLast?
    let m1 : TrainingMetrics :=
      { totalTrainingSessions := m.totalTrainingSessions + 1
        totalExamples := m.totalExamples + nExamples
        lastTrainingTime := some now
        accuracy := acc
        loss := h.loss.getLast?
        progressLevel := m.progressLevel }
    let m2 :=
      if jsOptGtQ acc (4/5) then
        let cur := if m1.progressLevel = "" then "beginner" else m1.progressLevel
        { m1 with progressLevel := advanceLevel cur }
      else m1
    ⟨true, m2, true⟩

/-! ### `generateResponse` and the rule-based fallback -/

/-- Does `sub` occur at the head of `hay`? -/
def leadMatch : List Char → List Char → Bool
  | [], _ => true
  | _ :: _, [] => false
  | c :: cs, d :: ds => c == d && leadMatch cs ds

/-- Does `sub` occur anywhere in `hay`? (JS `input.match(/a|b|.../)` with
literal alternatives is substring search.) -/
def hasSub (sub : List Char) : List Char → Bool
  | [] => leadMatch sub []
  | d :: ds => leadMatch sub (d :: ds) || hasSub sub ds

/-- Does the input match any of the regex's literal alternatives? -/
def matchesAny (input : String) (alts : List String) : Bool :=
  alts.any (fun a => hasSub a.data input.data)

/-- Alternatives of the greeting regex. -/
def greetingAlts : List String :=
  ["hello", "hi", "hey", "good morning", "good afternoon", "good evening", "how are you"]

/-- Alternatives of the farewell regex. -/
def farewellAlts : List String :=
  ["goodbye", "bye", "see you", "take care"]

/-- Alternatives of the self-description regex. -/
def aboutAlts : List String :=
  ["who are you", "what are you", "tell me about yourself"]

/-- Alternatives of the learning-question regex. -/
def learnAlts : List String :=
  ["teach", "learn", "language", "word", "grammar", "vocabulary", "speak", "write"]

/-- The five generic acknowledgments of `generateFallbackResponse`. -/
def defaultResponses : List String :=
  [ "I\x27m still learning from our conversations. Could you tell me more?"
  , "That\x27s interesting! As we talk more, I\x27ll get better at responding."
  , "I\x27m processing what you said. My neural network is learning from this interaction!"
  , "Thanks for chatting with me. Each conversation helps me learn and improve."
  , "I\x27m designed to learn from our conversations. Please continue, and I\x27ll get better over time."
  ]

/-- `generateFallbackResponse(userInput)`: keyword-match the lowercased
input against the four category regexes in order, else pick
`defaultResponses[Math.floor(r * 5)]` where `r` is the `Math.random()`
draw. -/
def generateFallbackResponse (userInput : String) (r : ℚ) : String :=
  let input := jsToLower userInput
  if matchesAny input greetingAlts then
    "Hello! I\x27m still learning, but I\x27m happy to chat with you. How can I help with your language learning today?"
  else if matchesAny input farewellAlts then
    "Goodbye! Thanks for chatting with me. I\x27m learning from our conversation!"
  else if matchesAny input aboutAlts then
    "I\x27m MR Bot, a self-learning language teaching assistant. I\x27m designed to learn from our conversations to help you better!"
  else if matchesAny input learnAlts then
    "I\x27d be happy to help you learn languages! As we talk more, I\x27ll get better at teaching you. What specific language would you like to practice?"
  else
    (defaultResponses.get? (Int.toNat ⌊r * 5⌋)).getD ""

/-- The oracle for the model's forward pass:
encoder input → decoding step → decoder prefix → top-k (token, score
increment) list. It stands for the weights: `createModel` installs a fresh
one, and it is the only part of the state `exportModel` cannot serialize. -/
def PredictFn : Type :=
  List (Option Nat) → Nat → List (Option Nat) → List (Nat × ℤ)

/-- The mutable state of a `NeuralLanguageModel` instance, restricted to the
fields the verified operations read. `isInit` models `initialized` (merged
with the `this.model` null check, which is true exactly when initialized). -/
structure NLMState where
  isInit : Bool
  tokenizer : Tokenizer
  params : Params
  trainingMetrics : TrainingMetrics
  predictTopK : PredictFn

/-- `generateResponse(userInput)` (lines 823–933): the initialization
guard, the under-100-examples fallback guard, then beam search over the
encoded input and decoding of the best beam; an absent best beam (empty
beam list) throws in the source and is caught by the fallback, and an empty
decoded string falls back via `responseText || ...`. `r` is the
`Math.random()` draw the fallback responder may consume. -/
def generateResponse (s : NLMState) (userInput : String) (r : ℚ) : String :=
  if s.isInit = false then "I\x27m still initializing. Please try again in a moment."
  else if s.trainingMetrics.totalExamples < 100 then generateFallbackResponse userInput r
  else
    let maxLength := s.params.maxSequenceLength
    let encoderInput := s.tokenizer.encode userInput maxLength
    let beams := runBeamSearch (s.predictTopK encoderInput) (s.tokenizer.getId "<END>")
      (s.tokenizer.getId "<START>") maxLength
    match beams.head? with
    | none => generateFallbackResponse userInput r
    | some best =>
      let responseText := s.tokenizer.decode best.sequence
      if responseText = "" then generateFallbackResponse userInput r else responseText

/-! ### `exportModel` / `importModel` -/

/-- The tokenizer snapshot exported in the bundle (map entries as arrays). -/
structure TokenizerData where
  word2idx : List (String × Nat)
  idx2word : List (Nat × String)
  subwords : List (String × Nat)
  vocabSize : Nat
deriving DecidableEq

/-- `{word2idx: [...entries], idx2word: [...entries], subwords:
[...entries], vocabSize}`. -/
def tokenizerDataOf (t : Tokenizer) : TokenizerData :=
  ⟨t.word2idx, t.idx2word, t.subwords, t.vocabSize⟩

/-- The JSON export bundle. `modelJSON` is `this.model.toJSON()`, which
serializes the architecture only — the weight values are not part of the
bundle, and `importModel` never reads it beyond a truthiness check. -/
structure ExportData where
  modelJSON : Unit
  tokenizer : TokenizerData
  parameters : Params
  trainingMetrics : TrainingMetrics
  exportDate : String

/-- `exportModel('json')`: `null` when not initialized, else the bundle. -/
def exportModel (s : NLMState) (now : String) : Option ExportData :=
  if s.isInit = false then none
  else some ⟨(), tokenizerDataOf s.tokenizer, s.params, s.trainingMetrics, now⟩

/-- `importModel(importData)` on a valid bundle: rebuild the tokenizer maps
from the entry arrays, overwrite parameters and metrics (`{...old, ...new}`
with identical field sets), and then `createModel()` — a fresh forward
function `fresh`; the bundle carries no weights to restore. -/
def importModel (_s : NLMState) (d : ExportData) (fresh : PredictFn) : NLMState :=
  { isInit := true
    tokenizer := ⟨d.tokenizer.word2idx, d.tokenizer.idx2word, d.tokenizer.subwords,
                  d.tokenizer.vocabSize⟩
    params := d.parameters
    trainingMetrics := d.trainingMetrics
    predictTopK := fresh }

/-- Spec-side curriculum selection, assembled from `withDraws` and
`keepPred` exactly as the claim words it: keep an example iff its ordinal
is at or below the level, or one level above with its draw below 0.5, or
two levels above with its draw below 0.2; if fewer than 10 survive, use
the full set. -/
def specCurriculumSelect (data : List TrainPair) (lv : Nat) (rand : Nat → ℚ) :
    List TrainPair :=
  let f := ((withDraws lv rand data 0).filter
    (fun q => decide (keepPred lv (ordinalOf q.1) q.2))).map Prod.fst
  if f.length < 10 then data else f

/-! ### Concrete instances used by witnesses and counterexamples -/

/-- A fitted tokenizer over the corpus `["aa bb"]`: sub-words
`"aa" ↦ 4`, `"bb" ↦ 5`. -/
def exTok : Tokenizer := tokFit ["aa bb"]

/-- A forward-pass oracle that proposes token 4 after `<START>` and then
`<END>`. -/
def exPredictA : PredictFn :=
  fun _ _ seq => if jsLast seq = some 2 then [(4, 0)] else [(3, 0)]

/-- A forward-pass oracle (playing `createModel`'s freshly initialized
weights) that proposes token 5 after `<START>` and then `<END>`. -/
def exPredictB : PredictFn :=
  fun _ _ seq => if jsLast seq = some 2 then [(5, 0)] else [(3, 0)]

/-- Default parameters with a small `maxSequenceLength`. -/
def exParams : Params := { defaultParameters with maxSequenceLength := 4 }

/-- Metrics of a model past the 100-example fallback guard. -/
def exMetrics : TrainingMetrics := { initialTrainingMetrics with totalExamples := 100 }

/-- An initialized model state past the fallback guard, generating through
`exPredictA`. -/
def exState : NLMState := ⟨true, exTok, exParams, exMetrics, exPredictA⟩

/-- An initialized model state still under the 100-example guard. -/
def exStateLow : NLMState := ⟨true, exTok, exParams, initialTrainingMetrics, exPredictA⟩

/-- Invariant threaded through `fit`'s two insertion loops: `i2w` is the
entrywise swap of `w2i`, the ids of `w2i` are exactly `0, 1, 2, …` in
insertion order, the running counter is the next free id, and keys are
unrepeated. -/
structure FitInv (acc : FitAcc) : Prop where
  swap : acc.i2w = acc.w2i.map (fun p => (p.2, p.1))
  ids : acc.w2i.map Prod.snd = List.range acc.w2i.length
  counter : acc.idx = acc.w2i.length
  keyNodup : (acc.w2i.map Prod.fst).Nodup

/-! ## Lemmas about the JS `Map` model -/

theorem mget_eq_none_iff [DecidableEq K] (m : List (K × V)) (k : K) :
    mget m k = none ↔ k ∉ m.map Prod.fst := by
  induction m with
  | nil => simp [mget]
  | cons p ps ih =>
    by_cases h : p.1 = k
    · simp [mget, h]
    · simp only [mget, h, if_false, List.map_cons, List.mem_cons]
      rw [ih]
      constructor
      · intro hn hc
        rcases hc with hc | hc
        · exact h hc.symm
        · exact hn hc
      · intro hn hc
        exact hn (Or.inr hc)

theorem mget_isSome_iff [DecidableEq K] (m : List (K × V)) (k : K) :
    (mget m k).isSome = true ↔ k ∈ m.map Prod.fst := by
  constructor
  · intro h
    by_contra hk
    rw [(mget_eq_none_iff m k).mpr hk] at h
    simp at h
  · intro h
    cases hm : mget m k with
    | some v => simp
    | none => exact absurd ((mget_eq_none_iff m k).mp hm) (not_not_intro h)

theorem mhas_iff [DecidableEq K] (m : List (K × V)) (k : K) :
    mhas m k = true ↔ k ∈ m.map Prod.fst := by
  rw [mhas, mget_isSome_iff]

theorem mset_of_not_mem [DecidableEq K] (m : List (K × V)) (k : K) (v : V)
    (h : k ∉ m.map Prod.fst) : mset m k v = m ++ [(k, v)] := by
  rw [mset, if_neg]
  intro hc
  exact h ((mhas_iff m k).mp hc)

theorem mem_pairs_mset [DecidableEq K] (m : List (K × V)) (k : K) (v : V) :
    ∀ p ∈ mset m k v, p ∈ m ∨ p.1 = k := by
  intro p hp
  rw [mset] at hp
  by_cases h : mhas m k = true
  · rw [if_pos h] at hp
    obtain ⟨q, hq, he⟩ := List.mem_map.mp hp
    by_cases hqk : q.1 = k
    · right; rw [if_pos hqk] at he; rw [← he]
    · left; rw [if_neg hqk] at he; exact he ▸ hq
  · rw [if_neg h] at hp
    rcases List.mem_append.mp hp with hp | hp
    · exact Or.inl hp
    · right
      rw [List.mem_singleton] at hp
      rw [hp]

theorem keys_mset_subset [DecidableEq K] (m : List (K × V)) (k : K) (v : V) :
    ∀ x ∈ (mset m k v).map Prod.fst, x ∈ m.map Prod.fst ∨ x = k := by
  intro x hx
  obtain ⟨p, hp, he⟩ := List.mem_map.mp hx
  rcases mem_pairs_mset m k v p hp with hpm | hpk
  · exact Or.inl (he ▸ List.mem_map_of_mem Prod.fst hpm)
  · exact Or.inr (he ▸ hpk)

theorem keys_nodup_mset [DecidableEq K] (m : List (K × V)) (k : K) (v : V)
    (h : (m.map Prod.fst).Nodup) : ((mset m k v).map Prod.fst).Nodup := by
  rw [mset]
  by_cases hk : mhas m k = true
  · rw [if_pos hk]
    have heq : (m.map (fun p => if p.1 = k then (k, v) else p)).map Prod.fst = m.map Prod.fst := by
      rw [List.map_map]
      apply List.map_congr_left
      intro p _
      by_cases hp : p.1 = k <;> simp [hp]
    rw [heq]; exact h
  · rw [if_neg hk]
    rw [List.map_append]
    have hkm : k ∉ m.map Prod.fst := fun hmem => hk ((mhas_iff m k).mpr hmem)
    simp [List.nodup_append, h, hkm]

theorem mget_append_left [DecidableEq K] (m1 m2 : List (K × V)) (k : K)
    (h : (mget m1 k).isSome) : mget (m1 ++ m2) k = mget m1 k := by
  induction m1 with
  | nil => simp [mget] at h
  | cons p ps ih =>
    by_cases hp : p.1 = k
    · simp [mget, hp]
    · simp only [mget, hp, if_false, List.cons_append] at *
      exact ih h

theorem mget_append_right [DecidableEq K] (m1 m2 : List (K × V)) (k : K)
    (h : mget m1 k = none) : mget (m1 ++ m2) k = mget m2 k := by
  induction m1 with
  | nil => simp
  | cons p ps ih =>
    by_cases hp : p.1 = k
    · simp [mget, hp] at h
    · simp only [mget, hp, if_false, List.cons_append] at *
      exact ih h

theorem mget_some_val_mem [DecidableEq K] (m : List (K × V)) (k : K) (v : V)
    (h : mget m k = some v) : v ∈ m.map Prod.snd := by
  induction m with
  | nil => simp [mget] at h
  | cons p ps ih =>
    by_cases hp : p.1 = k
    · simp only [mget, hp, if_true, Option.some_inj] at h
      simp [← h]
    · simp only [mget, hp, if_false] at h
      simp [ih h]

/-- Forward direction of the inverse-map correspondence: when the values of
`m` are distinct, a `word2idx` hit maps back through the swapped list. -/
theorem mget_swap_of_mget [DecidableEq K] [DecidableEq V] (m : List (K × V)) (k : K) (v : V)
    (hnd : (m.map Prod.snd).Nodup) (h : mget m k = some v) :
    mget (m.map (fun p => (p.2, p.1))) v = some k := by
  induction m with
  | nil => simp [mget] at h
  | cons p ps ih =>
    simp only [List.map_cons, List.nodup_cons] at hnd
    by_cases hp : p.1 = k
    · simp only [mget, hp, if_true, Option.some_inj] at h
      simp [mget, h, hp]
    · simp only [mget, hp, if_false] at h
      have hv : v ∈ ps.map Prod.snd := mget_some_val_mem ps k v h
      have hpv : ¬ p.2 = v := fun he => hnd.1 (he ▸ hv)
      simp only [List.map_cons, mget, hpv, if_false]
      exact ih hnd.2 h

/-- Backward direction: when the keys of `m` are distinct, an `idx2word` hit
maps back through the original list. -/
theorem mget_of_mget_swap [DecidableEq K] [DecidableEq V] (m : List (K × V)) (k : K) (v : V)
    (hnd : (m.map Prod.fst).Nodup) (h : mget (m.map (fun p => (p.2, p.1))) v = some k) :
    mget m k = some v := by
  induction m with
  | nil => simp [mget] at h
  | cons p ps ih =>
    simp only [List.map_cons, List.nodup_cons] at hnd
    by_cases hp : p.2 = v
    · simp only [List.map_cons, mget, hp, if_true, Option.some_inj] at h
      simp [mget, ← h, hp]
    · simp only [List.map_cons, mget, hp, if_false] at h
      have hrec := ih hnd.2 h
      have hk : k ∈ ps.map Prod.fst := by
        rw [← mget_isSome_iff]; simp [hrec]
      have hpk : ¬ p.1 = k := fun he => hnd.1 (he ▸ hk)
      simp only [mget, hpk, if_false]
      exact hrec

/-! ## Lemmas about the stable sort -/

theorem insertDesc_perm (gt : α → α → Bool) (x : α) (l : List α) :
    (insertDesc gt x l).Perm (x :: l) := by
  induction l with
  | nil => simp [insertDesc]
  | cons y ys ih =>
    rw [insertDesc]
    by_cases h : gt x y = true
    · simp [h]
    · simp only [h, if_false]
      exact (ih.cons y).trans (List.Perm.swap x y ys)

theorem stableSortDesc_foldl_perm (gt : α → α → Bool) (l acc : List α) :
    (l.foldl (fun a x => insertDesc gt x a) acc).Perm (acc ++ l) := by
  induction l generalizing acc with
  | nil => simp
  | cons x xs ih =>
    simp only [List.foldl_cons]
    refine (ih (insertDesc gt x acc)).trans ?_
    refine (List.Perm.append_right xs (insertDesc_perm gt x acc)).trans ?_
    exact List.perm_middle.symm.trans (by simp)

theorem stableSortDesc_perm (gt : α → α → Bool) (l : List α) :
    (stableSortDesc gt l).Perm l := by
  simpa using stableSortDesc_foldl_perm gt l []

theorem mem_stableSortDesc (gt : α → α → Bool) (l : List α) (x : α) :
    x ∈ stableSortDesc gt l ↔ x ∈ l :=
  (stableSortDesc_perm gt l).mem_iff

/-! ## The vocabulary invariant established by `fit` -/

theorem fitInv_acc0 : FitInv ⟨reservedW2I, reservedI2W, [], 4⟩ := by
  refine ⟨?_, ?_, ?_, ?_⟩ <;> decide

theorem fitInv_addSubwordEntry (acc : FitAcc) (sw : String × Nat)
    (hinv : FitInv acc) (hfresh : sw.1 ∉ acc.w2i.map Prod.fst) :
    FitInv (addSubwordEntry acc sw) ∧
      (addSubwordEntry acc sw).w2i = acc.w2i ++ [(sw.1, acc.idx)] := by
  have hw : mset acc.w2i sw.1 acc.idx = acc.w2i ++ [(sw.1, acc.idx)] :=
    mset_of_not_mem _ _ _ hfresh
  have hidxfresh : acc.idx ∉ acc.i2w.map Prod.fst := by
    rw [hinv.swap]
    have hmm : (acc.w2i.map (fun p => (p.2, p.1))).map Prod.fst = acc.w2i.map Prod.snd := by
      rw [List.map_map]
      exact List.map_congr_left fun p _ => rfl
    rw [hmm, hinv.ids, hinv.counter]
    exact List.not_mem_range_self
  have hi : mset acc.i2w acc.idx sw.1 = acc.i2w ++ [(acc.idx, sw.1)] :=
    mset_of_not_mem _ _ _ hidxfresh
  refine ⟨⟨?_, ?_, ?_, ?_⟩, ?_⟩
  · show mset acc.i2w acc.idx sw.1 = (mset acc.w2i sw.1 acc.idx).map _
    rw [hw, hi, List.map_append, hinv.swap]
    simp
  · show (mset acc.w2i sw.1 acc.idx).map Prod.snd = List.range (mset acc.w2i sw.1 acc.idx).length
    rw [hw, List.map_append, List.length_append, hinv.ids, hinv.counter]
    simp [List.range_succ]
  · show acc.idx + 1 = (mset acc.w2i sw.1 acc.idx).length
    rw [hw, List.length_append, hinv.counter]
    rfl
  · show ((mset acc.w2i sw.1 acc.idx).map Prod.fst).Nodup
    exact keys_nodup_mset _ _ _ hinv.keyNodup
  · exact hw

theorem fitInv_addWholeWordEntry (acc : FitAcc) (wf : String × Nat) (hinv : FitInv acc) :
    FitInv (addWholeWordEntry acc wf) ∧
      ∃ l, (addWholeWordEntry acc wf).w2i = acc.w2i ++ l := by
  rw [addWholeWordEntry]
  by_cases h : mhas acc.w2i wf.1 = true
  · rw [if_pos h]
    exact ⟨hinv, [], by simp⟩
  · rw [if_neg h]
    have hfresh : wf.1 ∉ acc.w2i.map Prod.fst := fun hm => h ((mhas_iff _ _).mpr hm)
    have hstep := fitInv_addSubwordEntry acc (wf.1, acc.idx) hinv hfresh
    have hsame : addSubwordEntry acc (wf.1, acc.idx) =
        { acc with
            w2i := mset acc.w2i wf.1 acc.idx
            i2w := mset acc.i2w acc.idx wf.1
            subs := mset acc.subs wf.1 acc.idx
            idx := acc.idx + 1 } := rfl
    refine ⟨⟨?_, ?_, ?_, ?_⟩, ⟨[(wf.1, acc.idx)], ?_⟩⟩
    · exact hstep.1.swap
    · exact hstep.1.ids
    · exact hstep.1.counter
    · exact hstep.1.keyNodup
    · exact hstep.2

theorem fitInv_foldl_sub (ss : List (String × Nat)) :
    ∀ acc, FitInv acc → (ss.map Prod.fst).Nodup →
      (∀ p ∈ ss, p.1 ∉ acc.w2i.map Prod.fst) →
      FitInv (ss.foldl addSubwordEntry acc) ∧
        ∃ l, (ss.foldl addSubwordEntry acc).w2i = acc.w2i ++ l := by
  induction ss with
  | nil => exact fun acc h _ _ => ⟨h, [], by simp⟩
  | cons sw rest ih =>
    intro acc hinv hnd hfr
    obtain ⟨hinv1, happ1⟩ :=
      fitInv_addSubwordEntry acc sw hinv (hfr sw (List.mem_cons_self sw rest))
    simp only [List.map_cons, List.nodup_cons] at hnd
    have hfr2 : ∀ p ∈ rest, p.1 ∉ (addSubwordEntry acc sw).w2i.map Prod.fst := by
      intro p hp hmem
      rw [happ1, List.map_append] at hmem
      rcases List.mem_append.mp hmem with hm | hm
      · exact hfr p (List.mem_cons_of_mem sw hp) hm
      · simp only [List.map_cons, List.map_nil, List.mem_singleton] at hm
        exact hnd.1 (hm ▸ List.mem_map_of_mem Prod.fst hp)
    obtain ⟨hinv2, l2, happ2⟩ := ih (addSubwordEntry acc sw) hinv1 hnd.2 hfr2
    refine ⟨hinv2, ⟨[(sw.1, acc.idx)] ++ l2, ?_⟩⟩
    rw [List.foldl_cons, happ2, happ1, List.append_assoc]

theorem fitInv_foldl_whole (ws : List (String × Nat)) :
    ∀ acc, FitInv acc →
      FitInv (ws.foldl addWholeWordEntry acc) ∧
        ∃ l, (ws.foldl addWholeWordEntry acc).w2i = acc.w2i ++ l := by
  induction ws with
  | nil => exact fun acc h => ⟨h, [], by simp⟩
  | cons wf rest ih =>
    intro acc hinv
    obtain ⟨hinv1, l1, happ1⟩ := fitInv_addWholeWordEntry acc wf hinv
    obtain ⟨hinv2, l2, happ2⟩ := ih (addWholeWordEntry acc wf) hinv1
    refine ⟨hinv2, ⟨l1 ++ l2, ?_⟩⟩
    rw [List.foldl_cons, happ2, happ1, List.append_assoc]

/-! ## Key shape facts about the sub-word candidate map -/

theorem keys_nodup_foldl_mset [DecidableEq K] (f : β → K) (g : List (K × V) → β → V)
    (l : List β) :
    ∀ m, (m.map Prod.fst).Nodup →
      ((l.foldl (fun cs b => mset cs (f b) (g cs b)) m).map Prod.fst).Nodup := by
  induction l with
  | nil => exact fun m hm => hm
  | cons b bs ih => exact fun m hm => ih _ (keys_nodup_mset m (f b) (g m b) hm)

theorem mem_foldl_mset [DecidableEq K] (f : β → K) (g : List (K × V) → β → V)
    (l : List β) :
    ∀ m p, p ∈ l.foldl (fun cs b => mset cs (f b) (g cs b)) m →
      p ∈ m ∨ ∃ b ∈ l, p.1 = f b := by
  induction l with
  | nil => exact fun m p hp => Or.inl hp
  | cons b bs ih =>
    intro m p hp
    rcases ih _ p hp with hm | ⟨b2, hb2, he⟩
    · rcases mem_pairs_mset m (f b) (g m b) p hm with hm2 | hk
      · exact Or.inl hm2
      · exact Or.inr ⟨b, List.mem_cons_self b bs, hk⟩
    · exact Or.inr ⟨b2, List.mem_cons_of_mem b hb2, he⟩

theorem keys_nodup_addNgramsOfLen (word : List Char) (freqW n : Nat)
    (cands : List (String × Nat)) (h : (cands.map Prod.fst).Nodup) :
    ((addNgramsOfLen word freqW n cands).map Prod.fst).Nodup := by
  rw [addNgramsOfLen]
  by_cases hlt : word.length < n
  · rw [if_pos hlt]; exact h
  · rw [if_neg hlt]
    exact keys_nodup_foldl_mset (fun i => String.mk ((word.drop i).take n))
      (fun cs i => (mget cs (String.mk ((word.drop i).take n))).getD 0 + freqW) _ cands h

theorem keys_nodup_addNgramsOfWord (cands : List (String × Nat)) (wf : String × Nat)
    (h : (cands.map Prod.fst).Nodup) :
    ((addNgramsOfWord cands wf).map Prod.fst).Nodup := by
  rw [addNgramsOfWord]
  by_cases hle : wf.1.length ≤ 1
  · rw [if_pos hle]; exact h
  · rw [if_neg hle]
    exact keys_nodup_addNgramsOfLen _ _ 4
      (addNgramsOfLen wf.1.data wf.2 3 (addNgramsOfLen wf.1.data wf.2 2 cands))
      (keys_nodup_addNgramsOfLen _ _ 3 _ (keys_nodup_addNgramsOfLen _ _ 2 _ h))

theorem keys_nodup_buildSubwordCands (wordFreq : List (String × Nat)) :
    ((buildSubwordCands wordFreq).map Prod.fst).Nodup := by
  rw [buildSubwordCands]
  have haux : ∀ (wfs : List (String × Nat)) (cands : List (String × Nat)),
      (cands.map Prod.fst).Nodup →
      ((wfs.foldl addNgramsOfWord cands).map Prod.fst).Nodup := by
    intro wfs
    induction wfs with
    | nil => exact fun cands h => h
    | cons wf rest ih =>
      exact fun cands h => ih _ (keys_nodup_addNgramsOfWord cands wf h)
  exact haux wordFreq [] (by simp)

theorem keylen_addNgramsOfLen (word : List Char) (freqW n : Nat) (hn2 : 2 ≤ n) (hn4 : n ≤ 4)
    (cands : List (String × Nat)) :
    ∀ p ∈ addNgramsOfLen word freqW n cands,
      p ∈ cands ∨ (2 ≤ p.1.length ∧ p.1.length ≤ 4) := by
  intro p hp
  rw [addNgramsOfLen] at hp
  by_cases hlt : word.length < n
  · rw [if_pos hlt] at hp; exact Or.inl hp
  · rw [if_neg hlt] at hp
    rcases mem_foldl_mset (fun i => String.mk ((word.drop i).take n))
      (fun cs i => (mget cs (String.mk ((word.drop i).take n))).getD 0 + freqW)
      _ cands p hp with hm | ⟨i, hi, he⟩
    · exact Or.inl hm
    · right
      rw [List.mem_range] at hi
      have hlen : (String.mk ((word.drop i).take n)).length = n := by
        show ((word.drop i).take n).length = n
        rw [List.length_take, List.length_drop]
        omega
      rw [he, hlen]
      exact ⟨hn2, hn4⟩

theorem keylen_addNgramsOfWord (cands : List (String × Nat)) (wf : String × Nat) :
    ∀ p ∈ addNgramsOfWord cands wf,
      p ∈ cands ∨ (2 ≤ p.1.length ∧ p.1.length ≤ 4) := by
  intro p hp
  rw [addNgramsOfWord] at hp
  by_cases hle : wf.1.length ≤ 1
  · rw [if_pos hle] at hp; exact Or.inl hp
  · rw [if_neg hle] at hp
    have h4 := keylen_addNgramsOfLen wf.1.data wf.2 4 (by omega) (by omega) _ p hp
    rcases h4 with hp3 | hgood
    · have h3 := keylen_addNgramsOfLen wf.1.data wf.2 3 (by omega) (by omega) _ p hp3
      rcases h3 with hp2 | hgood
      · exact keylen_addNgramsOfLen wf.1.data wf.2 2 (by omega) (by omega) _ p hp2
      · exact Or.inr hgood
    · exact Or.inr hgood

theorem keylen_buildSubwordCands (wordFreq : List (String × Nat)) :
    ∀ p ∈ buildSubwordCands wordFreq, 2 ≤ p.1.length ∧ p.1.length ≤ 4 := by
  rw [buildSubwordCands]
  have haux : ∀ (wfs : List (String × Nat)) (cands : List (String × Nat)),
      (∀ p ∈ cands, 2 ≤ p.1.length ∧ p.1.length ≤ 4) →
      ∀ p ∈ wfs.foldl addNgramsOfWord cands, 2 ≤ p.1.length ∧ p.1.length ≤ 4 := by
    intro wfs
    induction wfs with
    | nil => exact fun cands h => h
    | cons wf rest ih =>
      intro cands h
      refine ih _ ?_
      intro p hp
      rcases keylen_addNgramsOfWord cands wf p hp with hm | hgood
      · exact h p hm
      · exact hgood
  exact haux wordFreq [] (by simp)

/-- Every invariant `fit` establishes on the resulting maps, in one bundle:
swap-inverse `idx2word`, ids `0..size-1` in insertion order, distinct keys,
`vocabSize` = map cardinality, and the reserved block as a prefix. -/
theorem fit_master (t : Tokenizer) (texts : List String) :
    (t.fit texts).idx2word = (t.fit texts).word2idx.map (fun p => (p.2, p.1)) ∧
    (t.fit texts).word2idx.map Prod.snd = List.range (t.fit texts).word2idx.length ∧
    ((t.fit texts).word2idx.map Prod.fst).Nodup ∧
    (t.fit texts).vocabSize = (t.fit texts).word2idx.length ∧
    ∃ rest, (t.fit texts).word2idx = reservedW2I ++ rest := by
  have hnd : (((stableSortDesc (fun a b => decide (b.2 < a.2))
      (buildSubwordCands (buildWordFreq texts))).take 5000).map Prod.fst).Nodup := by
    have hperm : ((stableSortDesc (fun a b => decide (b.2 < a.2))
        (buildSubwordCands (buildWordFreq texts))).map Prod.fst).Perm
        ((buildSubwordCands (buildWordFreq texts)).map Prod.fst) :=
      (stableSortDesc_perm _ _).map Prod.fst
    have hnd2 := hperm.nodup_iff.mpr (keys_nodup_buildSubwordCands (buildWordFreq texts))
    exact List.Nodup.sublist ((List.take_sublist _ _).map Prod.fst) hnd2
  have hfr : ∀ p ∈ (stableSortDesc (fun a b => decide (b.2 < a.2))
      (buildSubwordCands (buildWordFreq texts))).take 5000,
      p.1 ∉ reservedW2I.map Prod.fst := by
    intro p hp hmem
    have hlen := keylen_buildSubwordCands (buildWordFreq texts) p
      ((mem_stableSortDesc _ _ p).mp (List.mem_of_mem_take hp))
    have : p.1 = "<PAD>" ∨ p.1 = "<UNK>" ∨ p.1 = "<START>" ∨ p.1 = "<END>" := by
      simpa [reservedW2I] using hmem
    rcases this with h | h | h | h <;> rw [h] at hlen <;> revert hlen <;> decide
  obtain ⟨hinv1, l1, happ1⟩ :=
    fitInv_foldl_sub _ ⟨reservedW2I, reservedI2W, [], 4⟩ fitInv_acc0 hnd hfr
  obtain ⟨hinv2, l2, happ2⟩ := fitInv_foldl_whole (buildWordFreq texts) _ hinv1
  refine ⟨hinv2.swap, hinv2.ids, hinv2.keyNodup, rfl, ⟨l1 ++ l2, ?_⟩⟩
  show (((stableSortDesc (fun a b => decide (b.2 < a.2))
      (buildSubwordCands (buildWordFreq texts))).take 5000).foldl addSubwordEntry
      ⟨reservedW2I, reservedI2W, [], 4⟩ |> (buildWordFreq texts).foldl addWholeWordEntry).w2i
      = reservedW2I ++ (l1 ++ l2)
  rw [happ2, happ1, List.append_assoc]

theorem fit_getId_reserved (t : Tokenizer) (texts : List String) :
    (t.fit texts).getId "<PAD>" = some 0 ∧ (t.fit texts).getId "<UNK>" = some 1 ∧
    (t.fit texts).getId "<START>" = some 2 ∧ (t.fit texts).getId "<END>" = some 3 := by
  obtain ⟨-, -, -, -, rest, hrest⟩ := fit_master t texts
  rw [Tokenizer.getId, Tokenizer.getId, Tokenizer.getId, Tokenizer.getId, hrest]
  refine ⟨?_, ?_, ?_, ?_⟩ <;> rw [mget_append_left _ _ _ (by decide)] <;> decide

theorem fit_mget_iff (t : Tokenizer) (texts : List String) (w : String) (i : Nat) :
    mget (t.fit texts).word2idx w = some i ↔ mget (t.fit texts).idx2word i = some w := by
  obtain ⟨hswap, hids, hkeys, -, -⟩ := fit_master t texts
  constructor
  · intro h
    rw [hswap]
    exact mget_swap_of_mget _ _ _ (by rw [hids]; exact List.nodup_range _) h
  · intro h
    rw [hswap] at h
    exact mget_of_mget_swap _ _ _ hkeys h

/-- C9: after every call to `fit`, PAD, UNKNOWN, START, END occupy ids
0, 1, 2, 3; learned entries follow as a block with consecutive ids from 4
and no gaps; `vocabSize` equals the number of entries of `word2idx`;
`idx2word` is the exact inverse of `word2idx`; and the prior vocabulary is
entirely replaced (the result never depends on the pre-`fit` state). -/
theorem c9_fit_vocabulary_invariants (t : Tokenizer) (texts : List String) :
    ((t.fit texts).getId "<PAD>" = some 0 ∧ (t.fit texts).getId "<UNK>" = some 1 ∧
     (t.fit texts).getId "<START>" = some 2 ∧ (t.fit texts).getId "<END>" = some 3) ∧
    (∃ rest, (t.fit texts).word2idx = reservedW2I ++ rest ∧
       rest.map Prod.snd = (List.range rest.length).map (fun n => 4 + n)) ∧
    (t.fit texts).word2idx.map Prod.snd = List.range (t.fit texts).word2idx.length ∧
    (t.fit texts).vocabSize = (t.fit texts).word2idx.length ∧
    (∀ w i, mget (t.fit texts).word2idx w = some i ↔ mget (t.fit texts).idx2word i = some w) ∧
    t.fit texts = emptyTokenizer.fit texts := by
  obtain ⟨_, hids, _, hsize, rest, hrest⟩ := fit_master t texts
  refine ⟨fit_getId_reserved t texts, ⟨rest, hrest, ?_⟩, hids, hsize,
    fit_mget_iff t texts, rfl⟩
  have h := hids
  rw [hrest, List.map_append, List.length_append] at h
  have hres : reservedW2I.map Prod.snd = List.range 4 := by decide
  have hreslen : reservedW2I.length = 4 := by decide
  rw [hres, hreslen, List.range_add] at h
  exact List.append_cancel_left h

/-! ## Shape of `encode`'s output (claims C1–C3) -/

theorem encodeWords_exists (t : Tokenizer) (maxLength : Nat) :
    ∀ (ws : List String) (res : List (Option Nat)),
      ∃ k, encodeWords t maxLength ws res = res ++ ((ws.take k).flatMap (encodeWord t)) := by
  intro ws
  induction ws with
  | nil => exact fun res => ⟨0, by simp [encodeWords]⟩
  | cons w rest ih =>
    intro res
    show ∃ k, (if maxLength - 1 ≤ (res ++ encodeWord t w).length
        then res ++ encodeWord t w
        else encodeWords t maxLength rest (res ++ encodeWord t w)) =
      res ++ ((w :: rest).take k).flatMap (encodeWord t)
    by_cases h : maxLength - 1 ≤ (res ++ encodeWord t w).length
    · refine ⟨1, ?_⟩
      rw [if_pos h]
      simp
    · obtain ⟨k, hk⟩ := ih (res ++ encodeWord t w)
      refine ⟨k + 1, ?_⟩
      rw [if_neg h, hk]
      simp

theorem findSub_subword (t : Tokenizer) (cs : List Char) (li : Nat × Nat)
    (h : findSub t cs = some li) : ∃ s, mget t.subwords s = some li.2 := by
  rw [findSub] at h
  obtain ⟨len, _, hf⟩ := List.exists_of_findSome?_eq_some h
  cases hm : mget t.subwords (String.mk (cs.take len)) with
  | none => rw [hm] at hf; simp at hf
  | some id =>
    rw [hm] at hf
    simp only [Option.some_inj] at hf
    refine ⟨String.mk (cs.take len), ?_⟩
    rw [hm, ← hf]

theorem subwordLoop_tokens (t : Tokenizer) :
    ∀ (fuel : Nat) (cs : List Char), ∀ x ∈ (subwordLoop t fuel cs).1, isEmittedTok t x := by
  intro fuel
  induction fuel with
  | zero => intro cs x hx; simp [subwordLoop] at hx
  | succ n ih =>
    intro cs x hx
    cases cs with
    | nil => simp [subwordLoop] at hx
    | cons c cs' =>
      rw [subwordLoop] at hx
      cases hfs : findSub t (c :: cs') with
      | some li =>
        rw [hfs] at hx
        simp only [List.mem_cons] at hx
        rcases hx with he | hm
        · obtain ⟨s, hs⟩ := findSub_subword t (c :: cs') li hfs
          exact Or.inr (Or.inl ⟨s, li.2, hs, he⟩)
        · exact ih _ x hm
      | none =>
        rw [hfs] at hx
        simp only [List.mem_cons] at hx
        rcases hx with he | hm
        · exact Or.inr (Or.inr he)
        · exact ih _ x hm

theorem encodeWord_tokens (t : Tokenizer) (w : String) :
    ∀ x ∈ encodeWord t w, isEmittedTok t x := by
  intro x hx
  rw [encodeWord] at hx
  cases hg : t.getId w with
  | some id =>
    rw [hg] at hx
    simp only [List.mem_singleton] at hx
    exact Or.inl ⟨w, id, hg, hx⟩
  | none =>
    rw [hg] at hx
    by_cases hr : (subwordLoop t w.data.length w.data).2 = true
    · rw [if_pos hr] at hx
      exact subwordLoop_tokens t _ _ x hx
    · rw [if_neg hr] at hx
      rcases List.mem_append.mp hx with hm | hm
      · exact subwordLoop_tokens t _ _ x hm
      · rw [List.mem_singleton] at hm
        exact Or.inr (Or.inr hm)

/-- C1 (amended): `encode` always yields `<START>`, then word / sub-word /
UNKNOWN ids for a prefix of the words, then `<END>`, then `<PAD>` up to
`maxLength`; its length is `max maxLength (body
length + 2)` — at least `maxLength`, but strictly more whenever the
un-padded sequence overshoots, since the truncation check only runs
between words. -/
theorem c1_encode_shape (t : Tokenizer) (text : String) (maxLength : Nat) :
    ∃ body,
      t.encode text maxLength =
        t.getId "<START>" :: (body ++ t.getId "<END>" ::
          List.replicate (maxLength - (body.length + 2)) (t.getId "<PAD>")) ∧
      (∃ k, body = ((jsSplitWs (jsToLower text)).take k).flatMap (encodeWord t)) ∧
      (∀ x ∈ body, isEmittedTok t x) ∧
      (t.encode text maxLength).length = max maxLength (body.length + 2) ∧
      maxLength ≤ (t.encode text maxLength).length := by
  obtain ⟨k, hk⟩ := encodeWords_exists t maxLength (jsSplitWs (jsToLower text)) [t.getId "<START>"]
  refine ⟨((jsSplitWs (jsToLower text)).take k).flatMap (encodeWord t), ?_, ⟨k, rfl⟩, ?_, ?_, ?_⟩
  · show encodeWords t maxLength (jsSplitWs (jsToLower text)) [t.getId "<START>"] ++
        [t.getId "<END>"] ++ List.replicate _ (t.getId "<PAD>") = _
    rw [hk]
    simp [List.length_append]
  · intro x hx
    obtain ⟨w, _, hxw⟩ := List.mem_flatMap.mp hx
    exact encodeWord_tokens t w x hxw
  · show (encodeWords t maxLength (jsSplitWs (jsToLower text)) [t.getId "<START>"] ++
        [t.getId "<END>"] ++ List.replicate _ (t.getId "<PAD>")).length = _
    rw [hk]
    simp only [List.length_append, List.length_replicate, List.length_cons,
      List.length_nil]
    rcases Nat.le_total maxLength
        ((((jsSplitWs (jsToLower text)).take k).flatMap (encodeWord t)).length + 2) with h | h
    · rw [Nat.max_eq_right h]; omega
    · rw [Nat.max_eq_left h]; omega
  · show maxLength ≤ (encodeWords t maxLength (jsSplitWs (jsToLower text)) [t.getId "<START>"] ++
        [t.getId "<END>"] ++ List.replicate _ (t.getId "<PAD>")).length
    rw [hk]
    simp only [List.length_append, List.length_replicate, List.length_cons,
      List.length_nil]
    omega

/-- C1 counterexample: on the fitted tokenizer for the corpus
`["a b c d e"]`, encoding the in-vocabulary text `"a"` with
`maxLength = 2` returns 3 ids (`<START>`, `a`, `<END>`), not exactly
`maxLength`: the first word is always consumed before the truncation check
runs. -/
theorem c1_cex_encode_length_exceeds_maxLength :
    ((tokFit ["a b c d e"]).encode "a" 2).length ≠ 2 := by decide

/-! ## The decode/encode round trip (claim C2) -/

theorem encodeWord_of_isSome (t : Tokenizer) (w : String) (h : (t.getId w).isSome = true) :
    encodeWord t w = [t.getId w] := by
  cases hg : t.getId w with
  | some id => simp [encodeWord, hg]
  | none => rw [hg] at h; simp at h

theorem encodeWords_full (t : Tokenizer) (maxLength : Nat) :
    ∀ (ws : List String) (res : List (Option Nat)),
      (∀ w ∈ ws, (t.getId w).isSome = true) →
      res.length + ws.length ≤ maxLength - 1 →
      encodeWords t maxLength ws res = res ++ ws.map (fun w => t.getId w) := by
  intro ws
  induction ws with
  | nil => intro res _ _; simp [encodeWords]
  | cons w rest ih =>
    intro res hvoc hlen
    have hw := encodeWord_of_isSome t w (hvoc w (List.mem_cons_self w rest))
    show (if maxLength - 1 ≤ (res ++ encodeWord t w).length then res ++ encodeWord t w
          else encodeWords t maxLength rest (res ++ encodeWord t w)) = _
    rw [hw]
    cases rest with
    | nil =>
      by_cases h : maxLength - 1 ≤ (res ++ [t.getId w]).length
      · rw [if_pos h]; simp
      · rw [if_neg h]; simp [encodeWords]
    | cons w2 rest2 =>
      have hlen2 : (res ++ [t.getId w]).length + (w2 :: rest2).length ≤ maxLength - 1 := by
        simp only [List.length_append, List.length_cons, List.length_nil] at *
        omega
      have hnb : ¬ (maxLength - 1 ≤ (res ++ [t.getId w]).length) := by
        simp only [List.length_append, List.length_cons, List.length_nil] at *
        omega
      rw [if_neg hnb,
        ih (res ++ [t.getId w]) (fun x hx => hvoc x (List.mem_cons_of_mem w hx)) hlen2]
      simp

theorem decodeLoop_skip (t2 : Tokenizer) (idx : Option Nat)
    (h : idx = t2.getId "<PAD>" ∨ idx = t2.getId "<START>")
    (rest : List (Option Nat)) (cw : String) (acc : List String) :
    decodeLoop t2 (idx :: rest) cw acc = decodeLoop t2 rest cw acc := by
  show (if idx = t2.getId "<PAD>" ∨ idx = t2.getId "<START>"
        then decodeLoop t2 rest cw acc else _) = _
  rw [if_pos h]

theorem decodeLoop_stop_end (t2 : Tokenizer) (idx : Option Nat)
    (hno : ¬ (idx = t2.getId "<PAD>" ∨ idx = t2.getId "<START>"))
    (hyes : idx = t2.getId "<END>") (rest : List (Option Nat)) (acc : List String) :
    decodeLoop t2 (idx :: rest) "" acc = acc := by
  show (if idx = t2.getId "<PAD>" ∨ idx = t2.getId "<START>"
        then decodeLoop t2 rest "" acc
        else if idx = t2.getId "<END>" then
          (if 0 < ("" : String).length then acc ++ [""] else acc)
        else _) = _
  rw [if_neg hno, if_pos hyes]
  simp

theorem decodeLoop_word_step (t2 : Tokenizer) (i : Nat) (w : String)
    (hPAD : t2.getId "<PAD>" = some 0) (hSTART : t2.getId "<START>" = some 2)
    (hEND : t2.getId "<END>" = some 3) (hi : 4 ≤ i)
    (hi2w : mget t2.idx2word i = some w) (hsub : mhas t2.subwords w = false)
    (hwu : w ≠ "<UNK>") (rest : List (Option Nat)) (acc : List String) :
    decodeLoop t2 (some i :: rest) "" acc = decodeLoop t2 rest "" (acc ++ [w]) := by
  have h0 : ¬ (some i = t2.getId "<PAD>" ∨ some i = t2.getId "<START>") := by
    rw [hPAD, hSTART]
    simp only [Option.some_inj]
    omega
  have h3 : ¬ (some i = t2.getId "<END>") := by
    rw [hEND]
    simp only [Option.some_inj]
    omega
  show (if some i = t2.getId "<PAD>" ∨ some i = t2.getId "<START>"
        then decodeLoop t2 rest "" acc
        else if some i = t2.getId "<END>" then
          (if 0 < ("" : String).length then acc ++ [""] else acc)
        else match decodeToken t2 (some i) with
          | some tok =>
            if mhas t2.subwords tok then decodeLoop t2 rest ("" ++ tok) acc
            else
              decodeLoop t2 rest ""
                (if tok = "<UNK>"
                  then (if 0 < ("" : String).length then acc ++ [""] else acc) ++ ["?"]
                  else (if 0 < ("" : String).length then acc ++ [""] else acc) ++ [tok])
          | none =>
            decodeLoop t2 rest "" ((if 0 < ("" : String).length then acc ++ [""] else acc) ++ [""])) = _
  rw [if_neg h0, if_neg h3]
  have htok : decodeToken t2 (some i) = some w := by
    simp [decodeToken, hi2w]
  rw [htok]
  simp [hsub, hwu]

theorem decodeLoop_words (t2 : Tokenizer)
    (hPAD : t2.getId "<PAD>" = some 0) (hUNK : t2.getId "<UNK>" = some 1)
    (hSTART : t2.getId "<START>" = some 2) (hEND : t2.getId "<END>" = some 3)
    (hinv : ∀ w i, mget t2.word2idx w = some i → mget t2.idx2word i = some w) :
    ∀ (ws : List String) (acc : List String),
      (∀ w ∈ ws, 4 ≤ (t2.getId w).getD 0 ∧ mhas t2.subwords w = false) →
      ∀ tail, decodeLoop t2 (ws.map (fun w => t2.getId w) ++ t2.getId "<END>" :: tail) "" acc
        = acc ++ ws := by
  intro ws
  induction ws with
  | nil =>
    intro acc _ tail
    have h0 : ¬ (t2.getId "<END>" = t2.getId "<PAD>" ∨ t2.getId "<END>" = t2.getId "<START>") := by
      rw [hPAD, hSTART, hEND]
      simp
    simpa using decodeLoop_stop_end t2 (t2.getId "<END>") h0 rfl tail acc
  | cons w rest ih =>
    intro acc hv tail
    obtain ⟨h4, hsub⟩ := hv w (List.mem_cons_self w rest)
    cases hg : t2.getId w with
    | none => rw [hg] at h4; simp at h4
    | some i =>
      rw [hg] at h4
      simp only [Option.getD_some] at h4
      have hi2w : mget t2.idx2word i = some w := hinv w i hg
      have hwu : w ≠ "<UNK>" := by
        intro he
        rw [he, hUNK] at hg
        simp only [Option.some_inj] at hg
        omega
      have hstep := decodeLoop_word_step t2 i w hPAD hSTART hEND h4 hi2w hsub hwu
        (rest.map (fun w => t2.getId w) ++ t2.getId "<END>" :: tail) acc
      calc decodeLoop t2 ((w :: rest).map (fun w => t2.getId w) ++ t2.getId "<END>" :: tail) "" acc
          = decodeLoop t2 (some i :: (rest.map (fun w => t2.getId w) ++ t2.getId "<END>" :: tail)) "" acc := by
            rw [List.map_cons, List.cons_append, hg]
        _ = decodeLoop t2 (rest.map (fun w => t2.getId w) ++ t2.getId "<END>" :: tail) "" (acc ++ [w]) := hstep
        _ = (acc ++ [w]) ++ rest := ih (acc ++ [w]) (fun x hx => hv x (List.mem_cons_of_mem w hx)) tail
        _ = acc ++ (w :: rest) := by simp

/-- C2 (amended): for a fitted tokenizer, a text whose lowercased
whitespace-split words are all learned whole-word entries (id ≥ 4, not in
the sub-word table), and a `maxLength` large enough that no truncation
occurs (word count + 2 ≤ maxLength), decoding the encoding returns exactly
the case-folded, whitespace-normalized text: the words joined by single
spaces. Without the no-truncation bound the round trip drops words
(see the counterexample), and sub-word entries would be re-joined without
their separating spaces. -/
theorem c2_roundtrip_amended (t : Tokenizer) (texts : List String) (text : String)
    (maxLength : Nat)
    (hws : ∀ w ∈ jsSplitWs (jsToLower text),
      4 ≤ ((t.fit texts).getId w).getD 0 ∧ mhas (t.fit texts).subwords w = false)
    (hlen : (jsSplitWs (jsToLower text)).length + 2 ≤ maxLength) :
    (t.fit texts).decode ((t.fit texts).encode text maxLength) =
      String.intercalate " " (jsSplitWs (jsToLower text)) := by
  obtain ⟨hPAD, hUNK, hSTART, hEND⟩ := fit_getId_reserved t texts
  have hinv : ∀ w i, mget (t.fit texts).word2idx w = some i →
      mget (t.fit texts).idx2word i = some w :=
    fun w i h => (fit_mget_iff t texts w i).mp h
  have hvoc : ∀ w ∈ jsSplitWs (jsToLower text), ((t.fit texts).getId w).isSome = true := by
    intro w hw
    rcases hws w hw with ⟨h4, -⟩
    cases hg : (t.fit texts).getId w with
    | none => rw [hg] at h4; simp at h4
    | some i => simp
  have henc := encodeWords_full (t.fit texts) maxLength (jsSplitWs (jsToLower text))
      [(t.fit texts).getId "<START>"] hvoc
      (by simp only [List.length_cons, List.length_nil]; omega)
  have hseq : (t.fit texts).encode text maxLength =
      (t.fit texts).getId "<START>" ::
        ((jsSplitWs (jsToLower text)).map (fun w => (t.fit texts).getId w) ++
          (t.fit texts).getId "<END>" ::
            List.replicate
              (maxLength -
                (((jsSplitWs (jsToLower text)).map (fun w => (t.fit texts).getId w)).length + 2))
              ((t.fit texts).getId "<PAD>")) := by
    show encodeWords (t.fit texts) maxLength (jsSplitWs (jsToLower text))
        [(t.fit texts).getId "<START>"] ++ [(t.fit texts).getId "<END>"] ++
        List.replicate _ ((t.fit texts).getId "<PAD>") = _
    rw [henc]
    simp [List.length_append]
  rw [hseq, Tokenizer.decode, decodeLoop_skip _ _ (Or.inr rfl),
    decodeLoop_words (t.fit texts) hPAD hUNK hSTART hEND hinv _ [] hws]
  simp

/-- C2 counterexample: with the tokenizer fitted on `["a b c d e"]`, the
all-in-vocabulary text `"a b c d e"` and `maxLength = 4 ≥ 4` decode back to
`"a b"`: truncation loses the remaining words, so information beyond casing
is lost even for in-vocabulary text. -/
theorem c2_cex_roundtrip_truncation :
    (∀ w ∈ jsSplitWs (jsToLower "a b c d e"),
      mhas (tokFit ["a b c d e"]).word2idx w = true) ∧
    jsToLower "a b c d e" = "a b c d e" ∧
    (tokFit ["a b c d e"]).decode ((tokFit ["a b c d e"]).encode "a b c d e" 4) = "a b" := by
  refine ⟨?_, ?_, ?_⟩ <;> decide

/-- Witness for `c2_roundtrip_amended` at the corpus `["a b c d e"]`,
text `"a b"`, `maxLength = 4`. -/
theorem c2_roundtrip_amended_witness :
    (∀ w ∈ jsSplitWs (jsToLower "a b"),
      4 ≤ ((emptyTokenizer.fit ["a b c d e"]).getId w).getD 0 ∧
        mhas (emptyTokenizer.fit ["a b c d e"]).subwords w = false) ∧
    (jsSplitWs (jsToLower "a b")).length + 2 ≤ 4 ∧
    (emptyTokenizer.fit ["a b c d e"]).decode
        ((emptyTokenizer.fit ["a b c d e"]).encode "a b" 4) =
      String.intercalate " " (jsSplitWs (jsToLower "a b")) :=
  ⟨by decide, by decide,
    c2_roundtrip_amended emptyTokenizer ["a b c d e"] "a b" 4 (by decide) (by decide)⟩

/-! ## Behaviour on an unfit vocabulary (claim C3) -/

theorem emitted_empty_none (x : Option Nat) (h : isEmittedTok emptyTokenizer x) : x = none := by
  rcases h with ⟨s, i, hm, -⟩ | ⟨s, i, hm, -⟩ | h
  · simp [mget, emptyTokenizer] at hm
  · simp [mget, emptyTokenizer] at hm
  · rw [h]; rfl

theorem decodeLoop_empty_vocab (ids : List Nat) :
    ∀ acc, decodeLoop emptyTokenizer (ids.map some) "" acc =
      acc ++ List.replicate ids.length "" := by
  induction ids with
  | nil => intro acc; simp [decodeLoop]
  | cons n rest ih =>
    intro acc
    have h0 : ¬ ((some n : Option Nat) = emptyTokenizer.getId "<PAD>" ∨
        (some n : Option Nat) = emptyTokenizer.getId "<START>") := by
      simp [Tokenizer.getId, emptyTokenizer, mget]
    have h3 : ¬ ((some n : Option Nat) = emptyTokenizer.getId "<END>") := by
      simp [Tokenizer.getId, emptyTokenizer, mget]
    show (if (some n : Option Nat) = emptyTokenizer.getId "<PAD>" ∨
          (some n : Option Nat) = emptyTokenizer.getId "<START>"
        then decodeLoop emptyTokenizer (rest.map some) "" acc
        else if (some n : Option Nat) = emptyTokenizer.getId "<END>" then
          (if 0 < ("" : String).length then acc ++ [""] else acc)
        else match decodeToken emptyTokenizer (some n) with
          | some tok =>
            if mhas emptyTokenizer.subwords tok then
              decodeLoop emptyTokenizer (rest.map some) ("" ++ tok) acc
            else
              decodeLoop emptyTokenizer (rest.map some) ""
                (if tok = "<UNK>"
                  then (if 0 < ("" : String).length then acc ++ [""] else acc) ++ ["?"]
                  else (if 0 < ("" : String).length then acc ++ [""] else acc) ++ [tok])
          | none =>
            decodeLoop emptyTokenizer (rest.map some) ""
              ((if 0 < ("" : String).length then acc ++ [""] else acc) ++ [""])) =
      acc ++ List.replicate (n :: rest).length ""
    rw [if_neg h0, if_neg h3]
    have htok : decodeToken emptyTokenizer (some n) = none := rfl
    rw [htok]
    show decodeLoop emptyTokenizer (rest.map some) ""
        ((if 0 < ("" : String).length then acc ++ [""] else acc) ++ [""]) = _
    rw [if_neg (by simp), ih (acc ++ [""])]
    simp [List.replicate_succ]

/-- C3 (amended): on an empty / never-fitted vocabulary, `encode` and
`decode` do not fail: every id `encode` pushes is JS `undefined` (every
`Map.get` misses), and `decode` of any sequence of numeric ids pushes one
`undefined`-rendered empty token per id, yielding a string of separating
spaces. No `NotInitialized` condition exists anywhere on these paths. -/
theorem c3_unfit_tokenizer_amended :
    (∀ (text : String) (maxLength : Nat),
      ∀ x ∈ emptyTokenizer.encode text maxLength, x = none) ∧
    (∀ ids : List Nat,
      emptyTokenizer.decode (ids.map some) =
        String.intercalate " " (List.replicate ids.length "")) := by
  constructor
  · intro text maxLength x hx
    obtain ⟨k, hk⟩ := encodeWords_exists emptyTokenizer maxLength (jsSplitWs (jsToLower text))
      [emptyTokenizer.getId "<START>"]
    have hx2 : x ∈ (encodeWords emptyTokenizer maxLength (jsSplitWs (jsToLower text))
        [emptyTokenizer.getId "<START>"] ++ [emptyTokenizer.getId "<END>"]) ++
        List.replicate
          (maxLength - (encodeWords emptyTokenizer maxLength (jsSplitWs (jsToLower text))
            [emptyTokenizer.getId "<START>"] ++ [emptyTokenizer.getId "<END>"]).length)
          (emptyTokenizer.getId "<PAD>") := hx
    rcases List.mem_append.mp hx2 with hm | hm
    · rcases List.mem_append.mp hm with hm2 | hm2
      · rw [hk] at hm2
        rcases List.mem_append.mp hm2 with hm3 | hm3
        · rw [List.mem_singleton] at hm3
          rw [hm3]; rfl
        · obtain ⟨w, _, hxw⟩ := List.mem_flatMap.mp hm3
          exact emitted_empty_none x (encodeWord_tokens emptyTokenizer w x hxw)
      · rw [List.mem_singleton] at hm2
        rw [hm2]; rfl
    · rw [List.eq_of_mem_replicate hm]; rfl
  · intro ids
    rw [Tokenizer.decode, decodeLoop_empty_vocab ids []]
    simp

/-- C3 counterexample: on the fresh (never fitted) tokenizer, `encode`
returns a sequence — five `undefined` ids for `encode("hi", 5)` — and
`decode` returns a (garbage) string — `" "` for ids `[7, 8]` — instead of
failing with a `NotInitialized` condition. -/
theorem c3_cex_no_notinitialized_failure :
    emptyTokenizer.encode "hi" 5 = List.replicate 5 none ∧
    emptyTokenizer.decode [some 7, some 8] = " " := by
  refine ⟨?_, ?_⟩ <;> decide

/-! ## Beam search: length bound and early stop (claim C4) -/

theorem expandBeam_len (topk : List (Nat × ℤ)) (b : BeamNode) :
    ∀ c ∈ expandBeam topk b, c.sequence.length = b.sequence.length + 1 := by
  intro c hc
  obtain ⟨tv, _, he⟩ := List.mem_map.mp hc
  rw [← he]
  simp

theorem beamCandidates_len (next : Nat → List (Option Nat) → List (Nat × ℤ))
    (endId : Option Nat) (i : Nat) (beams : List BeamNode) (n : Nat)
    (h : ∀ b ∈ beams, b.sequence.length ≤ n) :
    ∀ c ∈ beamCandidates next endId i beams, c.sequence.length ≤ n + 1 := by
  intro c hc
  obtain ⟨b, hb, hcb⟩ := List.mem_flatMap.mp hc
  by_cases he : jsLast b.sequence = endId
  · rw [if_pos he, List.mem_singleton] at hcb
    rw [hcb]
    exact Nat.le_succ_of_le (h b hb)
  · rw [if_neg he] at hcb
    rw [expandBeam_len _ b c hcb]
    exact Nat.succ_le_succ (h b hb)

theorem beamSelect_mem (cands : List BeamNode) : ∀ b ∈ beamSelect cands, b ∈ cands :=
  fun b hb => (mem_stableSortDesc _ cands b).mp (List.mem_of_mem_take hb)

theorem beamLoop_len (next : Nat → List (Option Nat) → List (Nat × ℤ)) (endId : Option Nat) :
    ∀ (fuel i : Nat) (beams : List BeamNode) (n : Nat),
      (∀ b ∈ beams, b.sequence.length ≤ n) →
      ∀ b ∈ beamLoop next endId fuel i beams, b.sequence.length ≤ n + fuel := by
  intro fuel
  induction fuel with
  | zero => intro i beams n h b hb; exact h b hb
  | succ f ih =>
    intro i beams n h b hb
    have hsel : ∀ c ∈ beamSelect (beamCandidates next endId i beams), c.sequence.length ≤ n + 1 :=
      fun c hc => beamCandidates_len next endId i beams n h c (beamSelect_mem _ c hc)
    show b.sequence.length ≤ n + (f + 1)
    by_cases hall : (beamSelect (beamCandidates next endId i beams)).all
        (fun b => decide (jsLast b.sequence = endId)) = true
    · have hb2 : b ∈ beamSelect (beamCandidates next endId i beams) := by
        have : beamLoop next endId (f + 1) i beams =
            beamSelect (beamCandidates next endId i beams) := by
          show (if (beamSelect (beamCandidates next endId i beams)).all
              (fun b => decide (jsLast b.sequence = endId)) = true
            then beamSelect (beamCandidates next endId i beams)
            else beamLoop next endId f (i + 1) (beamSelect (beamCandidates next endId i beams)))
            = _
          rw [if_pos hall]
        rw [this] at hb
        exact hb
      exact le_trans (hsel b hb2) (by omega)
    · have hb2 : b ∈ beamLoop next endId f (i + 1) (beamSelect (beamCandidates next endId i beams)) := by
        have : beamLoop next endId (f + 1) i beams =
            beamLoop next endId f (i + 1) (beamSelect (beamCandidates next endId i beams)) := by
          show (if (beamSelect (beamCandidates next endId i beams)).all
              (fun b => decide (jsLast b.sequence = endId)) = true
            then beamSelect (beamCandidates next endId i beams)
            else beamLoop next endId f (i + 1) (beamSelect (beamCandidates next endId i beams)))
            = _
          rw [if_neg hall]
        rw [this] at hb
        exact hb
      have := ih (i + 1) (beamSelect (beamCandidates next endId i beams)) (n + 1) hsel b hb2
      omega

theorem beamCandidates_of_all_ended (next : Nat → List (Option Nat) → List (Nat × ℤ))
    (endId : Option Nat) (i : Nat) :
    ∀ (beams : List BeamNode), (∀ b ∈ beams, jsLast b.sequence = endId) →
      beamCandidates next endId i beams = beams := by
  intro beams
  induction beams with
  | nil => intro _; rfl
  | cons b bs ih =>
    intro h
    rw [beamCandidates] at *
    rw [List.flatMap_cons, if_pos (h b (List.mem_cons_self b bs)),
      ih (fun c hc => h c (List.mem_cons_of_mem b hc))]
    rfl

/-- C4: beam search always terminates (`beamLoop` is a total function over
its explicit `maxLength - 1` fuel), no beam's sequence — in particular the
returned best beam's — ever exceeds `maxSequenceLength` tokens, and once
every beam ends in `<END>` the loop stops: one more selection pass runs and
the loop exits regardless of remaining fuel. -/
theorem c4_beam_search_bounded (next : Nat → List (Option Nat) → List (Nat × ℤ))
    (endId startTok : Option Nat) (maxLength : Nat) (h1 : 1 ≤ maxLength) :
    (∀ b ∈ runBeamSearch next endId startTok maxLength, b.sequence.length ≤ maxLength) ∧
    (∀ (fuel i : Nat) (beams : List BeamNode),
      (∀ b ∈ beams, jsLast b.sequence = endId) →
      beamLoop next endId (fuel + 1) i beams = beamSelect beams) := by
  constructor
  · intro b hb
    have hstart : ∀ c ∈ [(⟨[startTok], 0⟩ : BeamNode)], c.sequence.length ≤ 1 := by
      intro c hc
      rw [List.mem_singleton] at hc
      rw [hc]
      simp
    have := beamLoop_len next endId (maxLength - 1) 0 [⟨[startTok], 0⟩] 1 hstart b hb
    omega
  · intro fuel i beams hend
    have hc := beamCandidates_of_all_ended next endId i beams hend
    have hall : (beamSelect (beamCandidates next endId i beams)).all
        (fun b => decide (jsLast b.sequence = endId)) = true := by
      rw [List.all_eq_true]
      intro b hb
      rw [hc] at hb
      exact decide_eq_true (hend b (beamSelect_mem beams b hb))
    show (if (beamSelect (beamCandidates next endId i beams)).all
        (fun b => decide (jsLast b.sequence = endId)) = true
      then beamSelect (beamCandidates next endId i beams)
      else beamLoop next endId fuel (i + 1) (beamSelect (beamCandidates next endId i beams)))
      = beamSelect beams
    rw [if_pos hall, hc]

/-- Witness for `c4_beam_search_bounded`: the oracle that always proposes
token 4, `<END>` = 3, `<START>` = 2, `maxSequenceLength = 3`; the loop
stops at the fuel bound with the single beam `[2, 4, 4]` of length 3. -/
theorem c4_beam_search_bounded_witness :
    1 ≤ 3 ∧ (BeamNode.mk [some 2, some 4, some 4] 0).sequence.length ≤ 3 :=
  ⟨by decide,
    (c4_beam_search_bounded (fun _ _ => [(4, 0)]) (some 3) (some 2) 3 (by decide)).1
      ⟨[some 2, some 4, some 4], 0⟩ (by decide)⟩

/-! ## Curriculum selection (claim C5) -/

theorem curriculumFilter_eq_withDraws (lv : Nat) (rand : Nat → ℚ) :
    ∀ (ps : List TrainPair) (k : Nat),
      curriculumFilter lv rand ps k =
        ((withDraws lv rand ps k).filter
          (fun q => decide (keepPred lv (ordinalOf q.1) q.2))).map Prod.fst := by
  intro ps
  induction ps with
  | nil => intro k; rfl
  | cons p rest ih =>
    intro k
    show (if ordinalOf p ≤ lv then p :: curriculumFilter lv rand rest k
          else if ordinalOf p = lv + 1 then
            (if rand k < 1/2 then p :: curriculumFilter lv rand rest (k + 1)
             else curriculumFilter lv rand rest (k + 1))
          else if ordinalOf p = lv + 2 then
            (if rand k < 1/5 then p :: curriculumFilter lv rand rest (k + 1)
             else curriculumFilter lv rand rest (k + 1))
          else curriculumFilter lv rand rest k) =
        ((withDraws lv rand (p :: rest) k).filter
          (fun q => decide (keepPred lv (ordinalOf q.1) q.2))).map Prod.fst
    by_cases h1 : ordinalOf p ≤ lv
    · have hw : withDraws lv rand (p :: rest) k = (p, rand k) :: withDraws lv rand rest k := by
        show (if ordinalOf p = lv + 1 ∨ ordinalOf p = lv + 2 then _ else _) = _
        rw [if_neg (by omega)]
      have hk : keepPred lv (ordinalOf p) (rand k) := Or.inl h1
      rw [if_pos h1, hw, List.filter_cons, if_pos (by simpa using decide_eq_true hk),
        List.map_cons, ih k]
    · by_cases h2 : ordinalOf p = lv + 1
      · have hw : withDraws lv rand (p :: rest) k =
            (p, rand k) :: withDraws lv rand rest (k + 1) := by
          show (if ordinalOf p = lv + 1 ∨ ordinalOf p = lv + 2 then _ else _) = _
          rw [if_pos (Or.inl h2)]
        rw [if_neg h1, if_pos h2, hw]
        by_cases hr : rand k < 1/2
        · have hk : keepPred lv (ordinalOf p) (rand k) := Or.inr (Or.inl ⟨h2, hr⟩)
          rw [if_pos hr, List.filter_cons, if_pos (by simpa using decide_eq_true hk),
            List.map_cons, ih (k + 1)]
        · have hnk : ¬ keepPred lv (ordinalOf p) (rand k) := by
            intro hk
            rcases hk with hk | ⟨-, hk⟩ | ⟨hk, -⟩
            · exact h1 hk
            · exact hr hk
            · omega
          rw [if_neg hr, List.filter_cons, if_neg (by simpa using decide_eq_false hnk),
            ih (k + 1)]
      · by_cases h3 : ordinalOf p = lv + 2
        · have hw : withDraws lv rand (p :: rest) k =
              (p, rand k) :: withDraws lv rand rest (k + 1) := by
            show (if ordinalOf p = lv + 1 ∨ ordinalOf p = lv + 2 then _ else _) = _
            rw [if_pos (Or.inr h3)]
          rw [if_neg h1, if_neg h2, if_pos h3, hw]
          by_cases hr : rand k < 1/5
          · have hk : keepPred lv (ordinalOf p) (rand k) := Or.inr (Or.inr ⟨h3, hr⟩)
            rw [if_pos hr, List.filter_cons, if_pos (by simpa using decide_eq_true hk),
              List.map_cons, ih (k + 1)]
          · have hnk : ¬ keepPred lv (ordinalOf p) (rand k) := by
              intro hk
              rcases hk with hk | ⟨hk, -⟩ | ⟨-, hk⟩
              · exact h1 hk
              · omega
              · exact hr hk
            rw [if_neg hr, List.filter_cons, if_neg (by simpa using decide_eq_false hnk),
              ih (k + 1)]
        · have hw : withDraws lv rand (p :: rest) k =
              (p, rand k) :: withDraws lv rand rest k := by
            show (if ordinalOf p = lv + 1 ∨ ordinalOf p = lv + 2 then _ else _) = _
            rw [if_neg (by omega)]
          have hnk : ¬ keepPred lv (ordinalOf p) (rand k) := by
            intro hk
            rcases hk with hk | ⟨hk, -⟩ | ⟨hk, -⟩
            · exact h1 hk
            · exact h2 hk
            · exact h3 hk
          rw [if_neg h1, if_neg h2, if_neg h3, hw, List.filter_cons,
            if_neg (by simpa using decide_eq_false hnk), ih k]

/-- C5: with at least one difficulty-tagged example, `trainModel`'s example
selection is exactly the spec-side rule: keep an example iff its ordinal is
≤ L, or = L+1 with its (lazily consumed) draw below 0.5, or = L+2 with its
draw below 0.2 — and fall back to the full set when fewer than 10
survive. -/
theorem c5_curriculum_selection (data : List TrainPair) (m : TrainingMetrics)
    (rand : Nat → ℚ) (hdiff : hasDifficultyMetadata data = true) :
    curriculumSelect data m rand = specCurriculumSelect data (currentLevelValue m) rand := by
  show (if hasDifficultyMetadata data = true then
        (if (curriculumFilter (currentLevelValue m) rand data 0).length < 10 then data
         else curriculumFilter (currentLevelValue m) rand data 0)
      else data) = _
  rw [if_pos hdiff, curriculumFilter_eq_withDraws]
  rfl

/-- Witness for `c5_curriculum_selection`: one beginner and one expert
example at level `beginner`; the expert one is dropped without consuming a
draw, and as fewer than 10 survive the full set is returned. -/
theorem c5_curriculum_selection_witness :
    hasDifficultyMetadata
        [⟨"hi", "hello", some ⟨none, some "beginner", none⟩⟩,
         ⟨"x", "y", some ⟨none, some "expert", none⟩⟩] = true ∧
    curriculumSelect
        [⟨"hi", "hello", some ⟨none, some "beginner", none⟩⟩,
         ⟨"x", "y", some ⟨none, some "expert", none⟩⟩] initialTrainingMetrics (fun _ => 0) =
      specCurriculumSelect
        [⟨"hi", "hello", some ⟨none, some "beginner", none⟩⟩,
         ⟨"x", "y", some ⟨none, some "expert", none⟩⟩]
        (currentLevelValue initialTrainingMetrics) (fun _ => 0) :=
  ⟨by decide, c5_curriculum_selection _ _ _ (by decide)⟩

/-! ## Training epilogue: divergence and persistence (claim C6) -/

/-- C6 (amended): `trainModel` performs no divergence check. Whenever
`model.fit` resolves — TensorFlow.js resolves normally even with a `NaN`
loss — the run is treated as a success: metrics are updated (recording the
non-finite loss verbatim) and `saveModel` persists the weights and
vocabulary. Only a rejected `fit` is caught, and then nothing is persisted
and the metrics are untouched. -/
theorem c6_no_divergence_check (m : TrainingMetrics) (n : Nat) (now msg : String)
    (h : FitHistory) :
    trainModelFinish m n now (.err msg) = ⟨false, m, false⟩ ∧
    (trainModelFinish m n now (.ok h)).ok = true ∧
    (trainModelFinish m n now (.ok h)).saved = true ∧
    (trainModelFinish m n now (.ok h)).metrics.loss = h.loss.getLast? ∧
    (trainModelFinish m n now (.ok h)).metrics.accuracy = h.accuracy.getLast? := by
  refine ⟨rfl, rfl, rfl, ?_, ?_⟩ <;>
    by_cases hc : jsOptGtQ (h.accuracy.getLast?) (4/5) = true <;>
    simp [trainModelFinish, hc]

/-- C6 counterexample: a training run whose resolved history reports a
`NaN` loss and `NaN` accuracy returns success, records the `NaN`s in the
metrics, and persists (`saveModel` runs) — it does not fail with a
`TrainingDiverged` condition, and persistence is not skipped. -/
theorem c6_cex_nan_loss_persists :
    trainModelFinish initialTrainingMetrics 5 "2026-01-01" (.ok ⟨[.nan], [.nan]⟩) =
      ⟨true, ⟨1, 5, some "2026-01-01", some .nan, some .nan, "beginner"⟩, true⟩ := by
  decide

/-! ## Export / import round trip (claim C7) -/

/-- C7 (amended): importing a previously exported bundle restores the
tokenizer, the parameters and the training metrics exactly — so the
fallback-or-model path selection is preserved, and on the fallback path
the generated text is identical — but the model's forward function is the
freshly created one (`createModel`), not the exported model's: the bundle
carries no weights and `importModel` never restores any. -/
theorem c7_import_preserves_all_but_weights (s : NLMState) (fresh : PredictFn) (now : String)
    (h : s.isInit = true) :
    ∃ d, exportModel s now = some d ∧
      (importModel s d fresh).tokenizer = s.tokenizer ∧
      (importModel s d fresh).params = s.params ∧
      (importModel s d fresh).trainingMetrics = s.trainingMetrics ∧
      (importModel s d fresh).predictTopK = fresh ∧
      (importModel s d fresh).isInit = true ∧
      (s.trainingMetrics.totalExamples < 100 →
        ∀ input r, generateResponse (importModel s d fresh) input r =
          generateResponse s input r) := by
  refine ⟨⟨(), tokenizerDataOf s.tokenizer, s.params, s.trainingMetrics, now⟩,
    ?_, rfl, rfl, rfl, rfl, rfl, ?_⟩
  · simp [exportModel, h]
  · intro hlt input r
    simp [generateResponse, importModel, h, hlt]

/-- Witness for `c7_import_preserves_all_but_weights` at `exState` with
fresh forward function `exPredictB`. -/
theorem c7_import_preserves_witness :
    exState.isInit = true ∧
    (∃ d, exportModel exState "d" = some d ∧
      (importModel exState d exPredictB).tokenizer = exState.tokenizer ∧
      (importModel exState d exPredictB).params = exState.params ∧
      (importModel exState d exPredictB).trainingMetrics = exState.trainingMetrics ∧
      (importModel exState d exPredictB).predictTopK = exPredictB ∧
      (importModel exState d exPredictB).isInit = true ∧
      (exState.trainingMetrics.totalExamples < 100 →
        ∀ input r, generateResponse (importModel exState d exPredictB) input r =
          generateResponse exState input r)) :=
  ⟨rfl, c7_import_preserves_all_but_weights exState exPredictB "d" rfl⟩

/-- C7 counterexample: `exState` generates `"aa"` for input `"aa"`; after
`exportModel` then `importModel` with the freshly created forward function
`exPredictB`, the same input generates `"bb"`. Both runs take the model
path, so the imported model is not functionally equivalent to the exported
one. -/
theorem c7_cex_import_changes_generation :
    generateResponse exState "aa" 0 = "aa" ∧
    (exportModel exState "d").map
      (fun d => generateResponse (importModel exState d exPredictB) "aa" 0) = some "bb" := by
  refine ⟨?_, ?_⟩ <;> decide

/-! ## The fallback responder (claims C8 and C10) -/

theorem defaultResponses_pick_mem (r : ℚ) (_hr0 : 0 ≤ r) (hr1 : r < 1) :
    (defaultResponses.get? (Int.toNat ⌊r * 5⌋)).getD "" ∈ defaultResponses := by
  have h5 : ⌊r * 5⌋ < (5 : ℤ) := by
    rw [Int.floor_lt]
    push_cast
    linarith
  have hidx : Int.toNat ⌊r * 5⌋ < 5 := by omega
  have hall : ∀ i, i < 5 → (defaultResponses.get? i).getD "" ∈ defaultResponses := by decide
  exact hall _ hidx

theorem generateFallbackResponse_ne_empty (input : String) (r : ℚ)
    (hr0 : 0 ≤ r) (hr1 : r < 1) : generateFallbackResponse input r ≠ "" := by
  have hmem := defaultResponses_pick_mem r hr0 hr1
  have hne : ∀ x ∈ defaultResponses, ¬ x = "" := by decide
  rw [generateFallbackResponse]
  split_ifs <;> first | decide | exact hne _ hmem

/-- C8: on an initialized model below the 100-example threshold,
`generateResponse` bypasses the model entirely and returns the rule-based
fallback: the greeting / farewell / self-description / learning-question
category messages matched in that order against the lowercased input, else
one of the five generic acknowledgments picked by the random draw. -/
theorem c8_undertrained_fallback (s : NLMState) (input : String) (r : ℚ)
    (hInit : s.isInit = true) (hLow : s.trainingMetrics.totalExamples < 100)
    (hr0 : 0 ≤ r) (hr1 : r < 1) :
    generateResponse s input r = generateFallbackResponse input r ∧
    (matchesAny (jsToLower input) greetingAlts = true →
      generateFallbackResponse input r =
        "Hello! I\x27m still learning, but I\x27m happy to chat with you. How can I help with your language learning today?") ∧
    (matchesAny (jsToLower input) greetingAlts = false →
      matchesAny (jsToLower input) farewellAlts = true →
      generateFallbackResponse input r =
        "Goodbye! Thanks for chatting with me. I\x27m learning from our conversation!") ∧
    (matchesAny (jsToLower input) greetingAlts = false →
      matchesAny (jsToLower input) farewellAlts = false →
      matchesAny (jsToLower input) aboutAlts = true →
      generateFallbackResponse input r =
        "I\x27m MR Bot, a self-learning language teaching assistant. I\x27m designed to learn from our conversations to help you better!") ∧
    (matchesAny (jsToLower input) greetingAlts = false →
      matchesAny (jsToLower input) farewellAlts = false →
      matchesAny (jsToLower input) aboutAlts = false →
      matchesAny (jsToLower input) learnAlts = true →
      generateFallbackResponse input r =
        "I\x27d be happy to help you learn languages! As we talk more, I\x27ll get better at teaching you. What specific language would you like to practice?") ∧
    (matchesAny (jsToLower input) greetingAlts = false →
      matchesAny (jsToLower input) farewellAlts = false →
      matchesAny (jsToLower input) aboutAlts = false →
      matchesAny (jsToLower input) learnAlts = false →
      generateFallbackResponse input r ∈ defaultResponses) := by
  refine ⟨?_, ?_, ?_, ?_, ?_, ?_⟩
  · simp [generateResponse, hInit, hLow]
  · intro h1
    simp [generateFallbackResponse, h1]
  · intro h1 h2
    simp [generateFallbackResponse, h1, h2]
  · intro h1 h2 h3
    simp [generateFallbackResponse, h1, h2, h3]
  · intro h1 h2 h3 h4
    simp [generateFallbackResponse, h1, h2, h3, h4]
  · intro h1 h2 h3 h4
    have hpick := defaultResponses_pick_mem r hr0 hr1
    simpa [generateFallbackResponse, h1, h2, h3, h4] using hpick

/-- Witness for `c8_undertrained_fallback` at `exStateLow` with the
greeting input `"hello"`. -/
theorem c8_undertrained_fallback_witness :
    exStateLow.isInit = true ∧ exStateLow.trainingMetrics.totalExamples < 100 ∧
    generateResponse exStateLow "hello" 0 = generateFallbackResponse "hello" 0 :=
  ⟨rfl, by decide,
    (c8_undertrained_fallback exStateLow "hello" 0 rfl (by decide)
      (le_refl (0 : ℚ)) (zero_lt_one)).1⟩

/-- C10 (implicit): past the undertrained guard, a completed beam-search
decode never surfaces the empty string: if the decoded best beam is empty
(or no best beam exists at all — the caught-error path), the rule-based
fallback is substituted, and the fallback is never empty, so every
successful `generateResponse` call yields non-empty text. -/
theorem c10_generate_nonempty (s : NLMState) (input : String) (r : ℚ)
    (hInit : s.isInit = true) (hHigh : ¬ s.trainingMetrics.totalExamples < 100)
    (hr0 : 0 ≤ r) (hr1 : r < 1) :
    (∀ b, (runBeamSearch (s.predictTopK (s.tokenizer.encode input s.params.maxSequenceLength))
          (s.tokenizer.getId "<END>") (s.tokenizer.getId "<START>")
          s.params.maxSequenceLength).head? = some b →
      s.tokenizer.decode b.sequence = "" →
      generateResponse s input r = generateFallbackResponse input r) ∧
    generateResponse s input r ≠ "" := by
  have hfb := generateFallbackResponse_ne_empty input r hr0 hr1
  cases hh : (runBeamSearch (s.predictTopK (s.tokenizer.encode input s.params.maxSequenceLength))
      (s.tokenizer.getId "<END>") (s.tokenizer.getId "<START>")
      s.params.maxSequenceLength).head? with
  | none =>
    have hg : generateResponse s input r = generateFallbackResponse input r := by
      simp [generateResponse, hInit, hHigh, hh]
    constructor
    · intro b hb
      exact absurd hb (by simp)
    · rw [hg]; exact hfb
  | some best =>
    by_cases hd : s.tokenizer.decode best.sequence = ""
    · have hg : generateResponse s input r = generateFallbackResponse input r := by
        simp [generateResponse, hInit, hHigh, hh, hd]
      exact ⟨fun b _ _ => hg, by rw [hg]; exact hfb⟩
    · have hg : generateResponse s input r = s.tokenizer.decode best.sequence := by
        simp [generateResponse, hInit, hHigh, hh, hd]
      constructor
      · intro b hb hbe
        simp only [Option.some_inj] at hb
        exact absurd hbe (hb ▸ hd)
      · rw [hg]; exact hd

/-- Witness for `c10_generate_nonempty` at `exState` with input `"zzz"`
and draw 0. -/
theorem c10_generate_nonempty_witness :
    exState.isInit = true ∧ ¬ exState.trainingMetrics.totalExamples < 100 ∧
    generateResponse exState "zzz" 0 ≠ "" :=
  ⟨rfl, by decide,
    (c10_generate_nonempty exState "zzz" 0 rfl (by decide)
      (le_refl (0 : ℚ)) (zero_lt_one)).2⟩

end MRBot
